import Mathlib

/-!
# METAR parser of `donkey` (src/main.go): a shallow embedding and its properties

The development embeds `ParseMETAR` and `indexOf` of `src/main.go`, together with
the parts of the Go standard library they call (`strings.Fields`, `strings.Join`,
`strconv.Atoi`, `strconv.ParseFloat`, `regexp.FindStringSubmatch`, slicing and `len`).

Modelling conventions.

* A Go string is a `List Char`: a sequence of Unicode code points, stored in Go as their
  UTF-8 encoding.  Go strings holding bytes that are not valid UTF-8 are outside the model.
  `len` and slicing of a Go string count bytes, so they go through `bytes`.
* Go `int` is `Int` (no value computed here leaves the 64-bit range).
* `float64` fields are `ℚ`: temperatures are integers `0..99` (exact in `float64`), and the
  altimeter is the exact quotient `n / 100` that Go rounds to the nearest `float64`.
* `time.Now()` is a parameter (`Clock`); `time.Date` is recorded by its arguments.
* A run of `ParseMETAR` either returns `(METAR, error)` or panics at run time.
-/

namespace Donkey

/-! ## Go strings -/

/-- A Go string, as its sequence of code points. -/
abbrev GoString := List Char

/-- The UTF-8 encoding of one code point, as a list of byte values. -/
def utf8Bytes (c : Char) : List Nat :=
  let v := c.toNat
  if v < 0x80 then [v]
  else if v < 0x800 then [0xC0 + v / 0x40, 0x80 + v % 0x40]
  else if v < 0x10000 then [0xE0 + v / 0x1000, 0x80 + (v / 0x40) % 0x40, 0x80 + v % 0x40]
  else [0xF0 + v / 0x40000, 0x80 + (v / 0x1000) % 0x40, 0x80 + (v / 0x40) % 0x40, 0x80 + v % 0x40]

/-- The bytes of a Go string. -/
def bytes : GoString → List Nat
  | [] => []
  | c :: t => utf8Bytes c ++ bytes t

/-- Go `len(s)` for a string: the number of bytes. -/
def len (s : GoString) : Nat := (bytes s).length

/-- Go `unicode.IsSpace`: the Latin-1 spaces and the code points with the White_Space property. -/
def isSpace (c : Char) : Bool :=
  let v := c.toNat
  v == 0x09 || v == 0x0A || v == 0x0B || v == 0x0C || v == 0x0D || v == 0x20 ||
  v == 0x85 || v == 0xA0 || v == 0x1680 || (0x2000 ≤ v && v ≤ 0x200A) ||
  v == 0x2028 || v == 0x2029 || v == 0x202F || v == 0x205F || v == 0x3000

/-- Scanner of `strings.Fields`: `cur` is the field being read (empty between fields). -/
def fieldsAux : GoString → GoString → List GoString
  | cur, [] => if cur = [] then [] else [cur]
  | cur, c :: t =>
    if isSpace c then
      (if cur = [] then fieldsAux [] t else cur :: fieldsAux [] t)
    else fieldsAux (cur ++ [c]) t

/-- Go `strings.Fields`: split around runs of white space; no empty fields. -/
def Fields (s : GoString) : List GoString := fieldsAux [] s

/-- Go `strings.Join`. -/
def Join : List GoString → GoString → GoString
  | [], _ => []
  | [a], _ => a
  | a :: b :: t, sep => a ++ sep ++ Join (b :: t) sep

/-! ## strconv -/

/-- Value of a list of bytes read as decimal digits, most significant first (`none` when some
byte is not an ASCII digit). -/
def digitsValue : Nat → List Nat → Option Nat
  | acc, [] => some acc
  | acc, b :: t => if 48 ≤ b ∧ b ≤ 57 then digitsValue (acc * 10 + (b - 48)) t else none

/-- Go `strconv.Atoi` with the error dropped (`n, _ := strconv.Atoi(s)`): an optional sign and
decimal digits; `0` on a syntax error, the nearest 64-bit bound on a range error. -/
def Atoi (s : List Nat) : Int :=
  let body := match s with
    | 43 :: t => t
    | 45 :: t => t
    | _ => s
  let neg := match s with
    | 45 :: _ => true
    | _ => false
  if body = [] then 0
  else match digitsValue 0 body with
    | none => 0
    | some n =>
      if neg then (if n > 2 ^ 63 then -(2 ^ 63 : Int) else -(n : Int))
      else (if n ≥ 2 ^ 63 then (2 ^ 63 - 1 : Int) else (n : Int))

/-- Go `strconv.ParseFloat(s, 64)` with the error dropped, on the strings the parser gives it:
a non-empty string of ASCII digits denotes its integer value (exact for the at most four
digits that occur).  Other strings are not modelled and read as `0`; the parser only passes
groups matched by `\d{2}` and `\d{4}`. -/
def ParseFloat (s : GoString) : ℚ :=
  if s = [] then 0
  else match digitsValue 0 (bytes s) with
    | none => 0
    | some n => (n : ℚ)

/-! ## regexp -/

/-- The fragment of Go regular expressions the parser uses. -/
inductive Regex where
  | lit : Char → Regex
  | digit : Regex
  | cat : Regex → Regex → Regex
  | alt : Regex → Regex → Regex
  | opt : Regex → Regex
  | rep : Nat → Nat → Regex → Regex
  | plus : Regex → Regex
  | group : Nat → Regex → Regex

/-- Submatch texts by group number; a group that took no part has the empty text, as in
the slice `FindStringSubmatch` returns. -/
abbrev Caps := Nat → GoString

/-- No group has matched yet. -/
def noCaps : Caps := fun _ => []

/-- Record the text of group `i`. -/
def setCap (c : Caps) (i : Nat) (txt : GoString) : Caps :=
  fun j => if j = i then txt else c j

/-- One way of matching at the start of the input: the text matched, the input left over
and the submatches. -/
abbrev MatchRes := GoString × GoString × Caps

/-- Greedy bounded repetition `r{m,n}` of a matcher `f`: one more iteration is preferred
to stopping. -/
def repeatM (f : GoString → Caps → List MatchRes) : Nat → Nat → GoString → Caps → List MatchRes
  | m, 0, s, c => if m = 0 then [([], s, c)] else []
  | m, n + 1, s, c =>
    ((f s c).flatMap fun y =>
      (repeatM f (m - 1) n y.2.1 y.2.2).map fun z => (y.1 ++ z.1, z.2.1, z.2.2))
    ++ (if m = 0 then [([], s, c)] else [])

/-- All the ways `r` matches at the start of `s`, in the order of preference of Go's
leftmost-first (Perl-like) matching: the first alternative before the second, a greedy
operator's longer choice before the shorter.  The repeated expression of `plus` must
consume input at each iteration (it is `\d` in the parser), so that at most `s.length`
iterations occur. -/
def Regex.run : Regex → GoString → Caps → List MatchRes
  | .lit ch => fun s c =>
    match s with
    | x :: t => if x = ch then [([x], t, c)] else []
    | [] => []
  | .digit => fun s c =>
    match s with
    | x :: t => if 48 ≤ x.toNat ∧ x.toNat ≤ 57 then [([x], t, c)] else []
    | [] => []
  | .cat a b => fun s c =>
    (a.run s c).flatMap fun y =>
      (b.run y.2.1 y.2.2).map fun z => (y.1 ++ z.1, z.2.1, z.2.2)
  | .alt a b => fun s c => a.run s c ++ b.run s c
  | .opt a => fun s c => a.run s c ++ [([], s, c)]
  | .rep m n a => fun s c => repeatM a.run m n s c
  | .plus a => fun s c => repeatM a.run 1 s.length s c
  | .group i a => fun s c =>
    (a.run s c).map fun y => (y.1, y.2.1, setCap y.2.2 i y.1)

/-- The preferred match of `r` at the start of `s`, if any. -/
def matchAt (r : Regex) (s : GoString) : Option MatchRes := (r.run s noCaps).head?

/-- Go `FindStringSubmatch` of an unanchored expression: the preferred match at the
leftmost position of `s` where the expression matches; `none` is Go's `nil`.  Index `0` of
Go's result (the whole match) is the first component, index `i` is `caps i`. -/
def FindStringSubmatch (r : Regex) : GoString → Option (GoString × Caps)
  | [] => (matchAt r []).map fun y => (y.1, y.2.2)
  | x :: t =>
    match matchAt r (x :: t) with
    | some y => some (y.1, y.2.2)
    | none => FindStringSubmatch r t

/-- A literal word. -/
def Regex.word : Char → List Char → Regex
  | a, [] => .lit a
  | a, b :: t => .cat (.lit a) (Regex.word b t)

/-- The expression `\d{3}`. -/
def d3 : Regex := .rep 3 3 .digit

/-- The expression `\d{2,3}`. -/
def d23 : Regex := .rep 2 3 .digit

/-- The expression `\d{2}`. -/
def d2 : Regex := .rep 2 2 .digit

/-- The expression `\d{4}`. -/
def d4 : Regex := .rep 4 4 .digit

/-- The wind expression `(\d{3}|VRB)(\d{2,3})(G\d{2,3})?KT`. -/
def windRegex : Regex :=
  .cat (.group 1 (.alt d3 (.word 'V' ['R', 'B'])))
    (.cat (.group 2 d23)
      (.cat (.opt (.group 3 (.cat (.lit 'G') d23)))
        (.word 'K' ['T'])))

/-- The visibility expression `(\d+)SM`. -/
def visRegex : Regex :=
  .cat (.group 1 (.plus .digit)) (.word 'S' ['M'])

/-- The cloud expression `(FEW|SCT|BKN|OVC)(\d{3})`. -/
def cloudRegex : Regex :=
  .cat (.group 1 (.alt (.alt (.alt (.word 'F' ['E', 'W']) (.word 'S' ['C', 'T']))
      (.word 'B' ['K', 'N'])) (.word 'O' ['V', 'C'])))
    (.group 2 d3)

/-- The temperature expression `(\d{2})/(\d{2})`. -/
def tempRegex : Regex :=
  .cat (.group 1 d2) (.cat (.lit '/') (.group 2 d2))

/-- The altimeter expression `A(\d{4})`. -/
def altRegex : Regex :=
  .cat (.lit 'A') (.group 1 d4)

/-! ## The data model -/

/-- The reading of `time.Now()` the parser uses. -/
structure Clock where
  year : Int
  month : Int
deriving DecidableEq

/-- A `time.Time`, recorded as the arguments of the `time.Date(year, month, day, hour, min,
0, 0, time.UTC)` call that built it (Go normalises arguments outside their usual ranges);
`unset` is the zero `time.Time`. -/
inductive Time where
  | unset : Time
  | date (year month day hour min : Int) : Time
deriving DecidableEq

structure Wind where
  Direction : Int
  Speed : Int
  Gust : Int
deriving DecidableEq

structure CloudLayer where
  Coverage : GoString
  Height : Int
deriving DecidableEq

structure METAR where
  StationID : GoString
  ObservationTime : Time
  Wind : Wind
  Visibility : GoString
  Weather : List GoString
  CloudLayers : List CloudLayer
  Temperature : ℚ
  DewPoint : ℚ
  Altimeter : ℚ
  Remarks : GoString
deriving DecidableEq

/-- The Go zero value `METAR{}`. -/
def METAR.zero : METAR :=
  { StationID := [], ObservationTime := .unset, Wind := ⟨0, 0, 0⟩, Visibility := [],
    Weather := [], CloudLayers := [], Temperature := 0, DewPoint := 0, Altimeter := 0,
    Remarks := [] }

/-- The two errors `ParseMETAR` builds with `fmt.Errorf`; each carries the report. -/
inductive ParseError where
  | incomplete (report : GoString) : ParseError
  | invalidObservationTime (report : GoString) : ParseError
deriving DecidableEq

/-- How a call of `ParseMETAR` ends: it returns the pair `(METAR, error)`, where `none` is
the `nil` error, or it panics (a slice expression out of range). -/
inductive Outcome where
  | ret (m : METAR) (err : Option ParseError) : Outcome
  | panic (low high : Nat) : Outcome
deriving DecidableEq

/-! ## The parser -/

/-- Go `indexOf`: the index of the first element equal to `item`, `-1` when there is none. -/
def indexOf : List GoString → GoString → Int
  | [], _ => -1
  | v :: t, item =>
    if v = item then 0
    else
      let r := indexOf t item
      if r = -1 then -1 else r + 1

/-- The wind block (lines 75-87), run on the third token. -/
def parseWind (tok : GoString) : Wind :=
  match FindStringSubmatch windRegex tok with
  | some (_, g) =>
    { Direction := if g 1 ≠ ['V', 'R', 'B'] then Atoi (bytes (g 1)) else 0,
      Speed := Atoi (bytes (g 2)),
      Gust := if g 3 ≠ [] then Atoi ((bytes (g 3)).drop 1) else 0 }
  | none => ⟨0, 0, 0⟩

/-- The visibility loop (lines 90-96) over `parts[3:]`: the first match ends the loop. -/
def parseVisibility : List GoString → GoString
  | [] => []
  | part :: rest =>
    match FindStringSubmatch visRegex part with
    | some (_, g) => g 1 ++ ['S', 'M']
    | none => parseVisibility rest

/-- The cloud loop (lines 99-108): every matching token appends a layer. -/
def parseClouds : List GoString → List CloudLayer
  | [] => []
  | part :: rest =>
    match FindStringSubmatch cloudRegex part with
    | some (_, g) => ⟨g 1, Atoi (bytes (g 2)) * 100⟩ :: parseClouds rest
    | none => parseClouds rest

/-- The temperature loop (lines 111-118): the first match ends the loop. -/
def parseTemp : List GoString → ℚ × ℚ
  | [] => (0, 0)
  | part :: rest =>
    match FindStringSubmatch tempRegex part with
    | some (_, g) => (ParseFloat (g 1), ParseFloat (g 2))
    | none => parseTemp rest

/-- The altimeter loop (lines 121-128): the first match ends the loop. -/
def parseAltimeter : List GoString → ℚ
  | [] => 0
  | part :: rest =>
    match FindStringSubmatch altRegex part with
    | some (_, g) => ParseFloat (g 1) / 100
    | none => parseAltimeter rest

/-- The remarks block (lines 131-133). -/
def parseRemarks (parts : List GoString) : GoString :=
  let rmkIndex := indexOf parts ['R', 'M', 'K']
  if rmkIndex ≠ -1 then Join (parts.drop rmkIndex.toNat) [' '] else []

/-- Go `ParseMETAR` (lines 52-136). -/
def ParseMETAR (now : Clock) (metarString : GoString) : Outcome :=
  let parts := Fields metarString
  match parts with
  | [] => .ret METAR.zero (some (.incomplete metarString))
  | [_] => .ret METAR.zero (some (.incomplete metarString))
  | p0 :: p1 :: more =>
    if len p1 ≥ 6 then
      let timeStr := (bytes p1).take 6
      let day := Atoi (timeStr.take 2)
      let hour := Atoi ((timeStr.drop 2).take 2)
      let min := Atoi ((timeStr.drop 4).take 2)
      let obs := Time.date now.year now.month day hour min
      let wind : Wind := match more with
        | p2 :: _ => parseWind p2
        | [] => ⟨0, 0, 0⟩
      -- `parts[3:]` panics unless `3 ≤ len(parts)`
      match more with
      | [] => .panic 3 parts.length
      | _ :: tail3 =>
        let temps := parseTemp parts
        .ret { StationID := p0, ObservationTime := obs, Wind := wind,
               Visibility := parseVisibility tail3, Weather := [],
               CloudLayers := parseClouds parts,
               Temperature := temps.1, DewPoint := temps.2,
               Altimeter := parseAltimeter parts,
               Remarks := parseRemarks parts } none
    else
      .ret { METAR.zero with StationID := p0 } (some (.invalidObservationTime metarString))

/-! ## Vocabulary of the properties -/

/-- A string without white space. -/
def NoSpace (t : GoString) : Prop := ∀ c ∈ t, isSpace c = false


/-- An ASCII decimal digit, the class `\d` of Go's `regexp`. -/
def IsDigit (c : Char) : Prop := 48 ≤ c.toNat ∧ c.toNat ≤ 57

/-- A string of ASCII decimal digits. -/
def IsDigits (ds : GoString) : Prop := ∀ d ∈ ds, IsDigit d

/-- The number a string of decimal digits denotes. -/
def decimal (ds : GoString) : Nat := ds.foldl (fun acc c => acc * 10 + (c.toNat - 48)) 0

/-- The direction group of the wind form: three digits, or `VRB`. -/
def WindDirForm (D : GoString) : Prop := (IsDigits D ∧ D.length = 3) ∨ D = ['V', 'R', 'B']

/-- The speed group of the wind form: two or three digits. -/
def WindSpeedForm (S : GoString) : Prop := IsDigits S ∧ 2 ≤ S.length ∧ S.length ≤ 3

/-- The gust group of the wind form: absent, or `G` and two or three digits. -/
def WindGustForm (G : GoString) : Prop :=
  G = [] ∨ ∃ g, G = 'G' :: g ∧ IsDigits g ∧ 2 ≤ g.length ∧ g.length ≤ 3

/-- The token `tok` holds, right after `pre`, a substring of the wind form
`(three digits or VRB)(2 to 3 digits)(optionally G and 2 to 3 digits)KT`, with groups
`D`, `S` and `G`; `post` is what follows it. -/
def WindAt (tok pre D S G post : GoString) : Prop :=
  tok = pre ++ (D ++ (S ++ (G ++ ('K' :: 'T' :: post)))) ∧
    WindDirForm D ∧ WindSpeedForm S ∧ WindGustForm G

/-- The wind read off the groups of the wind form: direction `0` for `VRB` and the
three-digit number otherwise, the speed, and the number after `G` (`0` without a gust group). -/
def windValue (D S G : GoString) : Wind :=
  { Direction := if D = ['V', 'R', 'B'] then 0 else (decimal D : Int),
    Speed := (decimal S : Int),
    Gust := (decimal (G.drop 1) : Int) }

/-- The token `tok` holds, right after `pre`, one or more digits `ds` followed by `SM`. -/
def VisAt (tok pre ds post : GoString) : Prop :=
  tok = pre ++ (ds ++ ('S' :: 'M' :: post)) ∧ IsDigits ds ∧ ds ≠ []

/-- The token has a substring of the visibility form. -/
def ContainsVis (tok : GoString) : Prop := ∃ pre ds post, VisAt tok pre ds post

/-- The coverage codes. -/
def coverageCodes : List GoString :=
  [['F', 'E', 'W'], ['S', 'C', 'T'], ['B', 'K', 'N'], ['O', 'V', 'C']]

/-- The token `tok` holds, right after `pre`, a coverage code followed by three digits `h`. -/
def CloudAt (tok pre code h post : GoString) : Prop :=
  tok = pre ++ (code ++ (h ++ post)) ∧ code ∈ coverageCodes ∧ IsDigits h ∧ h.length = 3

/-- The token has a substring of the cloud form. -/
def ContainsCloud (tok : GoString) : Prop := ∃ pre code h post, CloudAt tok pre code h post

/-- The token `tok` holds, right after `pre`, two digits `a`, a slash and two digits `b`. -/
def TempAt (tok pre a b post : GoString) : Prop :=
  tok = pre ++ (a ++ ('/' :: (b ++ post))) ∧ IsDigits a ∧ a.length = 2 ∧
    IsDigits b ∧ b.length = 2

/-- The token has a substring of the temperature form. -/
def ContainsTemp (tok : GoString) : Prop := ∃ pre a b post, TempAt tok pre a b post

/-- The layer one token contributes in the cloud loop, if any. -/
def cloudLayerOf (tok : GoString) : Option CloudLayer :=
  match FindStringSubmatch cloudRegex tok with
  | some (_, g) => some ⟨g 1, Atoi (bytes (g 2)) * 100⟩
  | none => none


/-! ## Facts about the string functions -/


theorem fieldsAux_clean (s : GoString) : ∀ cur : GoString, NoSpace cur →
    ∀ tok ∈ fieldsAux cur s, tok ≠ [] ∧ NoSpace tok := by
  induction s with
  | nil =>
    intro cur hcur tok htok
    by_cases h : cur = []
    · simp [fieldsAux, h] at htok
    · simp [fieldsAux, h] at htok
      subst htok
      exact ⟨h, hcur⟩
  | cons c t ih =>
    intro cur hcur tok htok
    by_cases hc : isSpace c = true
    · by_cases h : cur = []
      · simp [fieldsAux, hc, h] at htok
        exact ih [] (by intro x hx; simp at hx) tok htok
      · simp [fieldsAux, hc, h] at htok
        rcases htok with rfl | htok
        · exact ⟨h, hcur⟩
        · exact ih [] (by intro x hx; simp at hx) tok htok
    · simp [fieldsAux, hc] at htok
      refine ih (cur ++ [c]) ?_ tok htok
      intro x hx
      simp at hx
      rcases hx with hx | rfl
      · exact hcur x hx
      · simpa using hc

theorem fields_clean (s : GoString) : ∀ tok ∈ Fields s, tok ≠ [] ∧ NoSpace tok :=
  fieldsAux_clean s [] (by intro x hx; simp at hx)

theorem fieldsAux_append_clean (tok : GoString) : ∀ (cur rest : GoString), NoSpace tok →
    fieldsAux cur (tok ++ rest) = fieldsAux (cur ++ tok) rest := by
  induction tok with
  | nil => intro cur rest _; simp
  | cons c t ih =>
    intro cur rest h
    have hc : isSpace c = false := h c (by simp)
    have ht : NoSpace t := fun x hx => h x (by simp [hx])
    simp [fieldsAux, hc]
    rw [ih (cur ++ [c]) rest ht]
    simp

theorem fields_join (toks : List GoString) (h : ∀ tok ∈ toks, tok ≠ [] ∧ NoSpace tok) :
    Fields (Join toks [' ']) = toks := by
  induction toks with
  | nil => simp [Join, Fields, fieldsAux]
  | cons a t ih =>
    have ha := h a (by simp)
    have ht : ∀ tok ∈ t, tok ≠ [] ∧ NoSpace tok := fun x hx => h x (by simp [hx])
    cases t with
    | nil =>
      simp only [Join, Fields]
      have := fieldsAux_append_clean a [] [] ha.2
      simp at this
      rw [this]
      simp [fieldsAux, ha.1]
    | cons b t2 =>
      simp only [Join, Fields]
      have := fieldsAux_append_clean a [] ([' '] ++ Join (b :: t2) [' ']) ha.2
      simp only [List.append_assoc] at this ⊢
      rw [this]
      have hsp : isSpace ' ' = true := by decide
      simp [fieldsAux, hsp, ha.1]
      exact ih ht

theorem join_cons_head (a : GoString) (t : List GoString) :
    ∃ r, Join (a :: t) [' '] = a ++ r := by
  cases t with
  | nil => exact ⟨[], by simp [Join]⟩
  | cons b t2 => exact ⟨[' '] ++ Join (b :: t2) [' '], by simp [Join]⟩

theorem indexOf_ge (l : List GoString) (item : GoString) : -1 ≤ indexOf l item := by
  induction l with
  | nil => simp [indexOf]
  | cons v t ih =>
    simp only [indexOf]
    split_ifs <;> omega

theorem indexOf_absent (l : List GoString) (item : GoString) (h : item ∉ l) :
    indexOf l item = -1 := by
  induction l with
  | nil => simp [indexOf]
  | cons v t ih =>
    simp at h
    have hv : ¬ v = item := fun e => h.1 e.symm
    simp [indexOf, hv, ih h.2]

theorem indexOf_first (pre post : List GoString) (item : GoString) (h : item ∉ pre) :
    indexOf (pre ++ item :: post) item = pre.length := by
  induction pre with
  | nil => simp [indexOf]
  | cons v t ih =>
    simp at h
    have hv : ¬ v = item := fun e => h.1 e.symm
    have e := ih h.2
    have hne : ¬ ((t.length : Int) = -1) := by omega
    have e2 : indexOf ((v :: t) ++ item :: post) item
        = if indexOf (t ++ item :: post) item = -1 then -1
          else indexOf (t ++ item :: post) item + 1 := by
      show indexOf (v :: (t ++ item :: post)) item = _
      simp only [indexOf, hv, if_false]
    rw [e2, e]
    simp [hne]


theorem mem_split_first (l : List GoString) (item : GoString) (hmem : item ∈ l) :
    ∃ pre post, l = pre ++ item :: post ∧ item ∉ pre := by
  induction l with
  | nil => simp at hmem
  | cons a l ih =>
    by_cases ha : a = item
    · exact ⟨[], l, by simp [ha], by simp⟩
    · have hl : item ∈ l := by
        simp only [List.mem_cons] at hmem
        rcases hmem with h1 | h1
        · exact absurd h1.symm ha
        · exact h1
      obtain ⟨pre, post, e, hp⟩ := ih hl
      refine ⟨a :: pre, post, by simp [e], ?_⟩
      simp only [List.mem_cons, not_or]
      exact ⟨fun h1 => ha h1.symm, hp⟩


/-! ## Shape of the outcomes of `ParseMETAR` -/

theorem parse_ok {now : Clock} {s : GoString} {m : METAR}
    (h : ParseMETAR now s = .ret m none) :
    ∃ p0 p1 p2 rest, Fields s = p0 :: p1 :: p2 :: rest ∧ 6 ≤ len p1 ∧
      m.StationID = p0 ∧ m.Wind = parseWind p2 ∧ m.Visibility = parseVisibility rest ∧
      m.CloudLayers = parseClouds (Fields s) ∧ m.Temperature = (parseTemp (Fields s)).1 ∧
      m.DewPoint = (parseTemp (Fields s)).2 ∧ m.Altimeter = parseAltimeter (Fields s) ∧
      m.Remarks = parseRemarks (Fields s) := by
  unfold ParseMETAR at h
  generalize Fields s = parts at h ⊢
  match parts, h with
  | [], h => simp at h
  | [_], h => simp at h
  | [p0, p1], h =>
    by_cases h6 : len p1 ≥ 6 <;> simp [h6] at h
  | p0 :: p1 :: p2 :: rest, h =>
    by_cases h6 : len p1 ≥ 6
    · simp [h6] at h
      subst h
      exact ⟨p0, p1, p2, rest, rfl, h6, rfl, rfl, rfl, rfl, rfl, rfl, rfl, rfl⟩
    · simp [h6] at h

theorem parse_err {now : Clock} {s : GoString} {m : METAR} {e : ParseError}
    (h : ParseMETAR now s = .ret m (some e)) :
    ((Fields s).length < 2 ∧ e = .incomplete s ∧ m = METAR.zero) ∨
    (∃ p0 p1 more, Fields s = p0 :: p1 :: more ∧ len p1 < 6 ∧
      e = .invalidObservationTime s ∧ m = { METAR.zero with StationID := p0 }) := by
  unfold ParseMETAR at h
  generalize Fields s = parts at h ⊢
  match parts, h with
  | [], h => simp at h; left; simp [h.1, h.2]
  | [_], h => simp at h; left; simp [h.1, h.2]
  | [p0, p1], h =>
    by_cases h6 : len p1 ≥ 6
    · simp [h6] at h
    · simp [h6] at h
      right
      exact ⟨p0, p1, [], rfl, by omega, h.2.symm, h.1.symm⟩
  | p0 :: p1 :: p2 :: rest, h =>
    by_cases h6 : len p1 ≥ 6
    · simp [h6] at h
    · simp [h6] at h
      right
      exact ⟨p0, p1, p2 :: rest, rfl, by omega, h.2.symm, h.1.symm⟩

theorem len_ascii (t : GoString) (h : ∀ c ∈ t, c.toNat < 128) : len t = t.length := by
  induction t with
  | nil => rfl
  | cons c t ih =>
    have hc : c.toNat < 128 := h c (by simp)
    have ht := ih (fun x hx => h x (by simp [hx]))
    simp only [len] at ht ⊢
    simp [bytes, utf8Bytes, hc, ht]


/-! ## The matcher: what each operator matches -/

theorem mem_run_lit {ch : Char} {s : GoString} {c : Caps} {x : MatchRes} :
    x ∈ (Regex.lit ch).run s c ↔ ∃ t, s = ch :: t ∧ x = ([ch], t, c) := by
  cases s with
  | nil => simp [Regex.run]
  | cons a t =>
    by_cases h : a = ch
    · subst h; simp [Regex.run]
    · simp [Regex.run, h]

theorem mem_run_digit {s : GoString} {c : Caps} {x : MatchRes} :
    x ∈ Regex.digit.run s c ↔ ∃ d t, s = d :: t ∧ IsDigit d ∧ x = ([d], t, c) := by
  cases s with
  | nil => simp [Regex.run]
  | cons a t =>
    by_cases h : 48 ≤ a.toNat ∧ a.toNat ≤ 57
    · rw [show Regex.digit.run (a :: t) c
          = if 48 ≤ a.toNat ∧ a.toNat ≤ 57 then [([a], t, c)] else [] from rfl, if_pos h,
        List.mem_singleton]
      constructor
      · rintro rfl; exact ⟨a, t, rfl, h, rfl⟩
      · rintro ⟨d, t2, h1, _, rfl⟩
        simp at h1
        rw [h1.1, h1.2]
    · rw [show Regex.digit.run (a :: t) c
          = if 48 ≤ a.toNat ∧ a.toNat ≤ 57 then [([a], t, c)] else [] from rfl, if_neg h]
      simp only [List.not_mem_nil, false_iff]
      rintro ⟨d, t2, h1, h2, _⟩
      simp at h1
      rw [h1.1] at h
      exact h h2

theorem mem_run_cat {a b : Regex} {s : GoString} {c : Caps} {x : MatchRes} :
    x ∈ (Regex.cat a b).run s c ↔
      ∃ y ∈ a.run s c, ∃ z ∈ b.run y.2.1 y.2.2, x = (y.1 ++ z.1, z.2.1, z.2.2) := by
  simp only [Regex.run, List.mem_flatMap, List.mem_map]
  constructor
  · rintro ⟨y, hy, z, hz, rfl⟩; exact ⟨y, hy, z, hz, rfl⟩
  · rintro ⟨y, hy, z, hz, rfl⟩; exact ⟨y, hy, z, hz, rfl⟩

theorem mem_run_alt {a b : Regex} {s : GoString} {c : Caps} {x : MatchRes} :
    x ∈ (Regex.alt a b).run s c ↔ x ∈ a.run s c ∨ x ∈ b.run s c := by
  simp [Regex.run]

theorem mem_run_opt {a : Regex} {s : GoString} {c : Caps} {x : MatchRes} :
    x ∈ (Regex.opt a).run s c ↔ x ∈ a.run s c ∨ x = ([], s, c) := by
  simp [Regex.run]

theorem mem_run_group {i : Nat} {a : Regex} {s : GoString} {c : Caps} {x : MatchRes} :
    x ∈ (Regex.group i a).run s c ↔ ∃ y ∈ a.run s c, x = (y.1, y.2.1, setCap y.2.2 i y.1) := by
  simp only [Regex.run, List.mem_map]
  constructor
  · rintro ⟨y, hy, rfl⟩; exact ⟨y, hy, rfl⟩
  · rintro ⟨y, hy, rfl⟩; exact ⟨y, hy, rfl⟩

theorem mem_run_word {c : Caps} (w : List Char) :
    ∀ (a : Char) (s : GoString) (x : MatchRes), x ∈ (Regex.word a w).run s c ↔
      ∃ t, s = a :: w ++ t ∧ x = (a :: w, t, c) := by
  induction w with
  | nil =>
    intro a s x
    simp only [Regex.word, mem_run_lit]
    simp
  | cons b w ih =>
    intro a s x
    simp only [Regex.word, mem_run_cat, mem_run_lit]
    constructor
    · rintro ⟨y, ⟨t, rfl, rfl⟩, z, hz, rfl⟩
      obtain ⟨t2, h1, rfl⟩ := (ih b t z).1 hz
      simp at h1
      subst h1
      exact ⟨t2, by simp, by simp⟩
    · rintro ⟨t, rfl, rfl⟩
      refine ⟨([a], b :: w ++ t, c), ⟨_, by simp, rfl⟩, (b :: w, t, c), ?_, by simp⟩
      exact (ih b _ _).2 ⟨t, by simp, rfl⟩

theorem mem_repeat_digit {c : Caps} (n : Nat) :
    ∀ (m : Nat) (s : GoString) (x : MatchRes),
      x ∈ repeatM Regex.digit.run m n s c ↔
        ∃ ds rest, s = ds ++ rest ∧ IsDigits ds ∧ m ≤ ds.length ∧ ds.length ≤ n ∧
          x = (ds, rest, c) := by
  induction n with
  | zero =>
    intro m s x
    by_cases hm : m = 0
    · simp only [repeatM, hm, if_true, List.mem_singleton]
      constructor
      · rintro rfl; exact ⟨[], s, by simp, by intro d hd; simp at hd, by simp, by simp, rfl⟩
      · rintro ⟨ds, rest, rfl, _, _, h4, rfl⟩
        have : ds = [] := by simpa using h4
        subst this; rfl
    · simp only [repeatM, hm, if_false, List.not_mem_nil, false_iff]
      rintro ⟨ds, rest, _, _, h3, h4, _⟩
      omega
  | succ n ih =>
    intro m s x
    simp only [repeatM, List.mem_append, List.mem_flatMap, List.mem_map]
    constructor
    · rintro (⟨y, hy, z, hz, rfl⟩ | h)
      · obtain ⟨d, t, rfl, hd, rfl⟩ := mem_run_digit.1 hy
        obtain ⟨ds, rest, h1, h2, h3, h4, rfl⟩ := (ih _ _ _).1 hz
        simp only at h1
        subst h1
        refine ⟨d :: ds, rest, by simp, ?_, by simp; omega, by simp; omega, rfl⟩
        intro e he
        simp at he
        rcases he with rfl | he
        · exact hd
        · exact h2 e he
      · by_cases hm : m = 0
        · simp [hm] at h
          subst h
          exact ⟨[], s, by simp, by intro d hd; simp at hd, by simp [hm], by simp, rfl⟩
        · simp [hm] at h
    · rintro ⟨ds, rest, rfl, h2, h3, h4, rfl⟩
      cases ds with
      | nil =>
        right
        have : m = 0 := by simpa using h3
        simp [this]
      | cons d ds =>
        left
        refine ⟨([d], ds ++ rest, c), mem_run_digit.2 ⟨d, _, by simp, h2 d (by simp), rfl⟩,
          (ds, rest, c), ?_, by simp⟩
        refine (ih _ _ _).2 ⟨ds, rest, rfl, fun e he => h2 e (by simp [he]), ?_, ?_, rfl⟩
        · simp at h3; omega
        · simpa using h4

theorem mem_run_rep_digit {m n : Nat} {s : GoString} {c : Caps} {x : MatchRes} :
    x ∈ (Regex.rep m n .digit).run s c ↔
      ∃ ds rest, s = ds ++ rest ∧ IsDigits ds ∧ m ≤ ds.length ∧ ds.length ≤ n ∧
        x = (ds, rest, c) := by
  exact mem_repeat_digit n m s x

theorem mem_run_plus_digit {s : GoString} {c : Caps} {x : MatchRes} :
    x ∈ (Regex.plus .digit).run s c ↔
      ∃ ds rest, s = ds ++ rest ∧ IsDigits ds ∧ 1 ≤ ds.length ∧ x = (ds, rest, c) := by
  show x ∈ repeatM Regex.digit.run 1 s.length s c ↔ _
  rw [mem_repeat_digit]
  constructor
  · rintro ⟨ds, rest, h1, h2, h3, _, h5⟩; exact ⟨ds, rest, h1, h2, h3, h5⟩
  · rintro ⟨ds, rest, h1, h2, h3, h5⟩
    exact ⟨ds, rest, h1, h2, h3, by subst h1; simp, h5⟩

/-! ## The leftmost match -/

theorem matchAt_none {r : Regex} {s : GoString} :
    matchAt r s = none ↔ r.run s noCaps = [] := by
  unfold matchAt
  cases r.run s noCaps <;> simp

theorem matchAt_mem {r : Regex} {s : GoString} {x : MatchRes} (h : matchAt r s = some x) :
    x ∈ r.run s noCaps := by
  unfold matchAt at h
  cases hl : r.run s noCaps with
  | nil => simp [hl] at h
  | cons a l => simp [hl] at h; simp [h]

theorem matchAt_some_of_ne {r : Regex} {s : GoString} (h : r.run s noCaps ≠ []) :
    ∃ x, matchAt r s = some x := by
  cases hm : matchAt r s with
  | none => exact absurd (matchAt_none.1 hm) h
  | some x => exact ⟨x, rfl⟩

theorem find_none {r : Regex} (s : GoString) :
    FindStringSubmatch r s = none ↔ ∀ pre t, s = pre ++ t → r.run t noCaps = [] := by
  induction s with
  | nil =>
    simp only [FindStringSubmatch, Option.map_eq_none', matchAt_none]
    constructor
    · intro h pre t e
      have : t = [] := by
        have := congrArg List.length e
        simp at this
        exact List.length_eq_zero.1 (by omega)
      rw [this]; exact h
    · intro h; exact h [] [] rfl
  | cons a s ih =>
    cases hm : matchAt r (a :: s) with
    | some y =>
      simp only [FindStringSubmatch, hm]
      constructor
      · intro h; cases h
      · intro h
        have := matchAt_none.2 (h [] (a :: s) rfl)
        rw [hm] at this; cases this
    | none =>
      simp only [FindStringSubmatch, hm]
      rw [ih]
      constructor
      · intro h pre t e
        cases pre with
        | nil => simp at e; subst e; exact matchAt_none.1 hm
        | cons b pre =>
          simp at e
          exact h pre t e.2
      · intro h pre t e
        exact h (a :: pre) t (by simp [e])

theorem find_at {r : Regex} (pre : GoString) :
    ∀ (s t : GoString) (x : MatchRes), s = pre ++ t →
      (∀ pre2 t2, s = pre2 ++ t2 → pre2.length < pre.length → r.run t2 noCaps = []) →
      matchAt r t = some x → FindStringSubmatch r s = some (x.1, x.2.2) := by
  induction pre with
  | nil =>
    intro s t x e _ hm
    simp at e; subst e
    cases s with
    | nil => simp [FindStringSubmatch, hm]
    | cons a s => simp [FindStringSubmatch, hm]
  | cons a pre ih =>
    intro s t x e hmin hm
    subst e
    have h0 : matchAt r (a :: (pre ++ t)) = none :=
      matchAt_none.2 (hmin [] (a :: (pre ++ t)) (by simp) (by simp))
    show FindStringSubmatch r (a :: (pre ++ t)) = _
    simp only [FindStringSubmatch, h0]
    refine ih (pre ++ t) t x rfl ?_ hm
    intro pre2 t2 e2 hlt
    exact hmin (a :: pre2) t2 (by simp [e2]) (by simp; omega)

theorem find_some {r : Regex} (s : GoString) :
    ∀ w, FindStringSubmatch r s = some w →
      ∃ pre t x, s = pre ++ t ∧ matchAt r t = some x ∧ w = (x.1, x.2.2) ∧
        ∀ pre2 t2, s = pre2 ++ t2 → pre2.length < pre.length → r.run t2 noCaps = [] := by
  induction s with
  | nil =>
    intro w h
    simp only [FindStringSubmatch, Option.map_eq_some'] at h
    obtain ⟨x, hx, rfl⟩ := h
    exact ⟨[], [], x, rfl, hx, rfl, by intro _ _ _ h; simp at h⟩
  | cons a s ih =>
    intro w h
    cases hm : matchAt r (a :: s) with
    | some y =>
      simp only [FindStringSubmatch, hm, Option.some.injEq] at h
      exact ⟨[], a :: s, y, rfl, hm, h.symm, by intro _ _ _ h; simp at h⟩
    | none =>
      simp only [FindStringSubmatch, hm] at h
      obtain ⟨pre, t, x, e, hx, hw, hmin⟩ := ih w h
      refine ⟨a :: pre, t, x, by simp [e], hx, hw, ?_⟩
      intro pre2 t2 e2 hlt
      cases pre2 with
      | nil => simp at e2; subst e2; exact matchAt_none.1 hm
      | cons b pre2 =>
        simp at e2
        exact hmin pre2 t2 e2.2 (by simp at hlt; omega)


/-! ## The wind expression -/

theorem mem_group_rep {i m n : Nat} {s : GoString} {c : Caps} {x : MatchRes} :
    x ∈ (Regex.group i (.rep m n .digit)).run s c ↔
      ∃ ds rest, s = ds ++ rest ∧ IsDigits ds ∧ m ≤ ds.length ∧ ds.length ≤ n ∧
        x = (ds, rest, setCap c i ds) := by
  rw [mem_run_group]
  constructor
  · rintro ⟨y, hy, rfl⟩
    obtain ⟨ds, rest, h1, h2, h3, h4, rfl⟩ := mem_run_rep_digit.1 hy
    exact ⟨ds, rest, h1, h2, h3, h4, rfl⟩
  · rintro ⟨ds, rest, h1, h2, h3, h4, rfl⟩
    exact ⟨(ds, rest, c), mem_run_rep_digit.2 ⟨ds, rest, h1, h2, h3, h4, rfl⟩, rfl⟩

theorem mem_windDir {s : GoString} {c : Caps} {x : MatchRes} :
    x ∈ (Regex.group 1 (.alt d3 (.word 'V' ['R', 'B']))).run s c ↔
      ∃ D rest, s = D ++ rest ∧ WindDirForm D ∧ x = (D, rest, setCap c 1 D) := by
  rw [mem_run_group]
  simp only [mem_run_alt, d3, mem_run_rep_digit, mem_run_word]
  constructor
  · rintro ⟨y, (⟨ds, rest, h1, h2, h3, h4, rfl⟩ | ⟨t, h1, rfl⟩), rfl⟩
    · exact ⟨ds, rest, h1, Or.inl ⟨h2, by omega⟩, rfl⟩
    · exact ⟨_, t, h1, Or.inr rfl, rfl⟩
  · rintro ⟨D, rest, h1, (⟨h2, h3⟩ | rfl), rfl⟩
    · exact ⟨(D, rest, c), Or.inl ⟨D, rest, h1, h2, by omega, by omega, rfl⟩, rfl⟩
    · exact ⟨(_, rest, c), Or.inr ⟨rest, h1, rfl⟩, rfl⟩

theorem mem_windGust {s : GoString} {c : Caps} {x : MatchRes} :
    x ∈ (Regex.opt (.group 3 (.cat (.lit 'G') d23))).run s c ↔
      (∃ g rest, s = 'G' :: g ++ rest ∧ IsDigits g ∧ 2 ≤ g.length ∧ g.length ≤ 3 ∧
        x = ('G' :: g, rest, setCap c 3 ('G' :: g))) ∨ x = ([], s, c) := by
  rw [mem_run_opt, mem_run_group]
  simp only [mem_run_cat, mem_run_lit, d23, mem_run_rep_digit]
  constructor
  · rintro (⟨y, ⟨y1, ⟨t, rfl, rfl⟩, z, ⟨ds, rest, h1, h2, h3, h4, rfl⟩, rfl⟩, rfl⟩ | h)
    · left
      simp only at h1
      subst h1
      exact ⟨ds, rest, by simp, h2, h3, h4, by simp⟩
    · right; exact h
  · rintro (⟨g, rest, rfl, h2, h3, h4, rfl⟩ | h)
    · left
      exact ⟨('G' :: g, rest, c), ⟨(['G'], g ++ rest, c), ⟨_, by simp, rfl⟩,
        (g, rest, c), ⟨g, rest, rfl, h2, h3, h4, rfl⟩, by simp⟩, rfl⟩
    · right; exact h

theorem wind_sound {t : GoString} {x : MatchRes} (h : x ∈ windRegex.run t noCaps) :
    ∃ D S G post, t = D ++ (S ++ (G ++ ('K' :: 'T' :: post))) ∧
      WindDirForm D ∧ WindSpeedForm S ∧ WindGustForm G ∧
      x.2.2 1 = D ∧ x.2.2 2 = S ∧ x.2.2 3 = G := by
  unfold windRegex at h
  rw [mem_run_cat] at h
  obtain ⟨y, hy, z, hz, rfl⟩ := h
  obtain ⟨D, r1, rfl, hD, rfl⟩ := mem_windDir.1 hy
  rw [mem_run_cat] at hz
  obtain ⟨y2, hy2, z2, hz2, rfl⟩ := hz
  obtain ⟨S, r2, h2, hS1, hS2, hS3, rfl⟩ := mem_group_rep.1 hy2
  simp only at h2; subst h2
  rw [mem_run_cat] at hz2
  obtain ⟨y3, hy3, z3, hz3, rfl⟩ := hz2
  obtain ⟨post, h4, rfl⟩ := (mem_run_word _ _ _ _).1 hz3
  rcases mem_windGust.1 hy3 with ⟨g, r3, h3, hg1, hg2, hg3, rfl⟩ | rfl
  · simp only at h3 h4; subst h3; subst h4
    refine ⟨D, S, 'G' :: g, post, by simp, hD, ⟨hS1, hS2, hS3⟩,
      Or.inr ⟨g, rfl, hg1, hg2, hg3⟩, ?_, ?_, ?_⟩ <;> simp [setCap]
  · simp only at h4; subst h4
    refine ⟨D, S, [], post, by simp, hD, ⟨hS1, hS2, hS3⟩, Or.inl rfl, ?_, ?_, ?_⟩ <;>
      simp [setCap, noCaps]

theorem wind_complete {D S G post : GoString} (hD : WindDirForm D) (hS : WindSpeedForm S)
    (hG : WindGustForm G) :
    windRegex.run (D ++ (S ++ (G ++ ('K' :: 'T' :: post)))) noCaps ≠ [] := by
  have hy := (@mem_windDir (D ++ (S ++ (G ++ ('K' :: 'T' :: post)))) noCaps _).2
    ⟨D, _, rfl, hD, rfl⟩
  have hy2 := (@mem_group_rep 2 2 3 (S ++ (G ++ ('K' :: 'T' :: post))) (setCap noCaps 1 D) _).2
    ⟨S, _, rfl, hS.1, hS.2.1, hS.2.2, rfl⟩
  have key : ∀ (c : Caps), ∃ c2 : Caps,
      (G ++ ['K', 'T'], post, c2) ∈
        (Regex.cat (.opt (.group 3 (.cat (.lit 'G') d23))) (.word 'K' ['T'])).run
          (G ++ ('K' :: 'T' :: post)) c := by
    intro c
    rcases hG with rfl | ⟨g, rfl, hg1, hg2, hg3⟩
    · refine ⟨c, mem_run_cat.2 ⟨([], 'K' :: 'T' :: post, c), mem_windGust.2 (Or.inr rfl),
        (['K', 'T'], post, c), (mem_run_word _ _ _ _).2 ⟨post, by simp, rfl⟩, by simp⟩⟩
    · refine ⟨setCap c 3 ('G' :: g), mem_run_cat.2 ⟨('G' :: g, 'K' :: 'T' :: post, _),
        mem_windGust.2 (Or.inl ⟨g, _, by simp, hg1, hg2, hg3, rfl⟩),
        (['K', 'T'], post, _), (mem_run_word _ _ _ _).2 ⟨post, by simp, rfl⟩, by simp⟩⟩
  obtain ⟨c2, hk⟩ := key (setCap (setCap noCaps 1 D) 2 S)
  have hmem : (D ++ (S ++ (G ++ ['K', 'T'])), post, c2) ∈
      windRegex.run (D ++ (S ++ (G ++ ('K' :: 'T' :: post)))) noCaps := by
    unfold windRegex
    exact mem_run_cat.2 ⟨_, hy, _, mem_run_cat.2 ⟨_, hy2, _, hk, rfl⟩, rfl⟩
  exact List.ne_nil_of_mem hmem

/-! ## Runs of digits -/

theorem digits_run_unique (ds : GoString) : ∀ (ds2 r r2 : GoString),
    IsDigits ds → IsDigits ds2 → (∀ d t, r = d :: t → ¬ IsDigit d) →
    (∀ d t, r2 = d :: t → ¬ IsDigit d) → ds ++ r = ds2 ++ r2 → ds = ds2 ∧ r = r2 := by
  induction ds with
  | nil =>
    intro ds2 r r2 _ h2 hr _ e
    cases ds2 with
    | nil => exact ⟨rfl, by simpa using e⟩
    | cons d t =>
      simp at e
      exact absurd (h2 d (by simp)) (hr d _ e)
  | cons a ds ih =>
    intro ds2 r r2 h1 h2 hr hr2 e
    cases ds2 with
    | nil =>
      simp at e
      exact absurd (h1 a (by simp)) (hr2 a _ e.symm)
    | cons d t =>
      simp at e
      obtain ⟨rfl, e⟩ := e
      obtain ⟨rfl, rfl⟩ := ih t r r2 (fun x hx => h1 x (by simp [hx]))
        (fun x hx => h2 x (by simp [hx])) hr hr2 e
      exact ⟨rfl, rfl⟩

theorem windDir_length {D : GoString} (h : WindDirForm D) : D.length = 3 := by
  rcases h with ⟨_, h⟩ | rfl
  · exact h
  · rfl

theorem gust_tail_nondigit {G post : GoString} (hG : WindGustForm G) :
    ∀ d t, G ++ ('K' :: 'T' :: post) = d :: t → ¬ IsDigit d := by
  intro d t e hd
  rcases hG with rfl | ⟨g, rfl, _⟩
  · simp at e
    rw [← e.1] at hd
    exact absurd hd (by unfold IsDigit; decide)
  · simp at e
    rw [← e.1] at hd
    exact absurd hd (by unfold IsDigit; decide)

theorem wind_unique {D S G post D2 S2 G2 post2 : GoString}
    (hD : WindDirForm D) (hS : WindSpeedForm S) (hG : WindGustForm G)
    (hD2 : WindDirForm D2) (hS2 : WindSpeedForm S2) (hG2 : WindGustForm G2)
    (e : D ++ (S ++ (G ++ ('K' :: 'T' :: post))) = D2 ++ (S2 ++ (G2 ++ ('K' :: 'T' :: post2)))) :
    D = D2 ∧ S = S2 ∧ G = G2 := by
  have hl : D.length = D2.length := by rw [windDir_length hD, windDir_length hD2]
  obtain ⟨e1, e2⟩ := List.append_inj e hl
  obtain ⟨e3, e4⟩ := digits_run_unique S S2 _ _ hS.1 hS2.1 (gust_tail_nondigit hG)
    (gust_tail_nondigit hG2) e2
  refine ⟨e1, e3, ?_⟩
  have hK : ∀ (p : GoString) d t, 'K' :: 'T' :: p = d :: t → ¬ IsDigit d := by
    intro p d t e hd
    simp at e
    rw [← e.1] at hd
    exact absurd hd (by unfold IsDigit; decide)
  rcases hG with rfl | ⟨g, rfl, hg, _⟩ <;> rcases hG2 with rfl | ⟨g2, rfl, hg2, _⟩
  · rfl
  · simp at e4
  · simp at e4
  · simp only [List.cons_append, List.cons.injEq, true_and] at e4
    obtain ⟨e5, _⟩ := digits_run_unique g g2 _ _ hg hg2 (hK post) (hK post2) e4
    rw [e5]

/-! ## Numbers -/

theorem bytes_digits (ds : GoString) (h : IsDigits ds) : bytes ds = ds.map Char.toNat := by
  induction ds with
  | nil => rfl
  | cons d t ih =>
    have hd := h d (by simp)
    have hlt : d.toNat < 128 := by unfold IsDigit at hd; omega
    simp [bytes, utf8Bytes, hlt, ih (fun x hx => h x (by simp [hx]))]

theorem digitsValue_digits (ds : GoString) : ∀ acc, IsDigits ds →
    digitsValue acc (ds.map Char.toNat)
      = some (ds.foldl (fun a c => a * 10 + (c.toNat - 48)) acc) := by
  induction ds with
  | nil => intro acc _; rfl
  | cons d t ih =>
    intro acc h
    have hd : 48 ≤ d.toNat ∧ d.toNat ≤ 57 := h d (by simp)
    simp only [List.map_cons, digitsValue, hd, and_self, if_true, List.foldl_cons]
    exact ih _ (fun x hx => h x (by simp [hx]))

theorem foldl_decimal_lt (ds : GoString) : ∀ acc, IsDigits ds →
    ds.foldl (fun a c => a * 10 + (c.toNat - 48)) acc < (acc + 1) * 10 ^ ds.length := by
  induction ds with
  | nil => intro acc _; simp
  | cons d t ih =>
    intro acc h
    have hd : 48 ≤ d.toNat ∧ d.toNat ≤ 57 := h d (by simp)
    have := ih (acc * 10 + (d.toNat - 48)) (fun x hx => h x (by simp [hx]))
    simp only [List.foldl_cons, List.length_cons]
    refine lt_of_lt_of_le this ?_
    rw [pow_succ, mul_comm (10 ^ t.length) 10, ← mul_assoc]
    apply Nat.mul_le_mul_right
    omega

theorem decimal_lt (ds : GoString) (h : IsDigits ds) : decimal ds < 10 ^ ds.length := by
  have := foldl_decimal_lt ds 0 h
  simpa [decimal] using this

theorem atoi_digits (ds : GoString) (h : IsDigits ds) (hne : ds ≠ []) (hlen : ds.length ≤ 18) :
    Atoi (bytes ds) = (decimal ds : Int) := by
  rw [bytes_digits ds h]
  cases ds with
  | nil => exact absurd rfl hne
  | cons d t =>
    have hd : 48 ≤ d.toNat ∧ d.toNat ≤ 57 := h d (by simp)
    have hv := digitsValue_digits (d :: t) 0 h
    have hlt := decimal_lt (d :: t) h
    have hpow : 10 ^ (d :: t).length ≤ 10 ^ 18 := Nat.pow_le_pow_right (by norm_num) hlen
    have hb : ¬ (decimal (d :: t) ≥ 2 ^ 63) := by
      have : (10 : Nat) ^ 18 < 2 ^ 63 := by norm_num
      omega
    simp only [List.map_cons] at hv ⊢
    unfold Atoi
    split
    · rename_i heq; simp at heq; omega
    · rename_i heq; simp at heq; omega
    · have hb2 : ¬ (List.foldl (fun a c => a * 10 + (c.toNat - 48)) 0 (d :: t) ≥ 2 ^ 63) := hb
      simp only [hv]
      rw [if_neg (by simp), if_neg (by simp), if_neg hb2]
      rfl

theorem parseFloat_digits (ds : GoString) (h : IsDigits ds) (hne : ds ≠ []) :
    ParseFloat ds = (decimal ds : ℚ) := by
  unfold ParseFloat
  rw [if_neg hne, bytes_digits ds h, digitsValue_digits ds 0 h]
  rfl

theorem bytes_cons_ascii (c : Char) (t : GoString) (h : c.toNat < 128) :
    bytes (c :: t) = c.toNat :: bytes t := by
  simp [bytes, utf8Bytes, h]

/-! ## The wind block -/

theorem find_wind_none {tok : GoString} :
    FindStringSubmatch windRegex tok = none ↔ ¬ ∃ pre D S G post, WindAt tok pre D S G post := by
  rw [find_none]
  constructor
  · rintro h ⟨pre, D, S, G, post, e, hD, hS, hG⟩
    exact wind_complete hD hS hG (h pre _ e)
  · intro h pre t e
    by_contra hne
    obtain ⟨x, hx⟩ := List.exists_mem_of_ne_nil _ hne
    obtain ⟨D, S, G, post, e2, hD, hS, hG, _⟩ := wind_sound hx
    exact h ⟨pre, D, S, G, post, by rw [e, e2], hD, hS, hG⟩

theorem find_wind_leftmost {tok pre D S G post : GoString} (h : WindAt tok pre D S G post)
    (hmin : ∀ pre2 D2 S2 G2 post2, WindAt tok pre2 D2 S2 G2 post2 → pre.length ≤ pre2.length) :
    ∃ w g, FindStringSubmatch windRegex tok = some (w, g) ∧ g 1 = D ∧ g 2 = S ∧ g 3 = G := by
  obtain ⟨e, hD, hS, hG⟩ := h
  obtain ⟨x, hx⟩ := matchAt_some_of_ne (@wind_complete D S G post hD hS hG)
  have hfind := find_at pre tok _ x e (by
    intro pre2 t2 e2 hlt
    by_contra hne
    obtain ⟨y, hy⟩ := List.exists_mem_of_ne_nil _ hne
    obtain ⟨D2, S2, G2, post2, e3, hD2, hS2, hG2, _⟩ := wind_sound hy
    have := hmin pre2 D2 S2 G2 post2 ⟨by rw [e2, e3], hD2, hS2, hG2⟩
    omega) hx
  obtain ⟨D2, S2, G2, post2, e3, hD2, hS2, hG2, c1, c2, c3⟩ := wind_sound (matchAt_mem hx)
  obtain ⟨rfl, rfl, rfl⟩ := wind_unique hD hS hG hD2 hS2 hG2 e3
  exact ⟨x.1, x.2.2, hfind, c1, c2, c3⟩

theorem parseWind_none {tok : GoString} (h : ¬ ∃ pre D S G post, WindAt tok pre D S G post) :
    parseWind tok = ⟨0, 0, 0⟩ := by
  unfold parseWind
  rw [find_wind_none.2 h]

theorem parseWind_leftmost {tok pre D S G post : GoString} (h : WindAt tok pre D S G post)
    (hmin : ∀ pre2 D2 S2 G2 post2, WindAt tok pre2 D2 S2 G2 post2 → pre.length ≤ pre2.length) :
    parseWind tok = windValue D S G := by
  obtain ⟨w, g, hf, rfl, rfl, rfl⟩ := find_wind_leftmost h hmin
  obtain ⟨_, hD, hS, hG⟩ := h
  unfold parseWind windValue
  rw [hf]
  have hspeed : Atoi (bytes (g 2)) = (decimal (g 2) : Int) :=
    atoi_digits _ hS.1 (by intro h0; have := hS.2.1; rw [h0] at this; simp at this)
      (by have := hS.2.2; omega)
  have hdir : (if g 1 ≠ ['V', 'R', 'B'] then Atoi (bytes (g 1)) else 0)
      = (if g 1 = ['V', 'R', 'B'] then 0 else (decimal (g 1) : Int)) := by
    rcases hD with ⟨h1, h2⟩ | h1
    · have hne : g 1 ≠ ['V', 'R', 'B'] := by
        intro h0
        have := h1 'V' (by rw [h0]; simp)
        exact absurd this (by unfold IsDigit; decide)
      rw [if_pos hne, if_neg hne]
      exact atoi_digits _ h1 (by intro h0; rw [h0] at h2; simp at h2) (by omega)
    · simp [h1]
  have hgust : (if g 3 ≠ [] then Atoi ((bytes (g 3)).drop 1) else 0)
      = (decimal ((g 3).drop 1) : Int) := by
    rcases hG with h1 | ⟨gg, h1, h2, h3, h4⟩
    · rw [h1]; simp [decimal]
    · rw [h1, if_pos (by simp), bytes_cons_ascii 'G' gg (by decide)]
      simp only [List.drop_succ_cons, List.drop_zero]
      exact atoi_digits _ h2 (by intro h0; rw [h0] at h3; simp at h3) (by omega)
  simp only [hspeed, hdir, hgust]

/-! ## The visibility expression -/

theorem vis_sound {t : GoString} {x : MatchRes} (h : x ∈ visRegex.run t noCaps) :
    ∃ ds post, t = ds ++ ('S' :: 'M' :: post) ∧ IsDigits ds ∧ ds ≠ [] ∧
      x.2.2 1 = ds := by
  unfold visRegex at h
  rw [mem_run_cat] at h
  obtain ⟨y, hy, z, hz, rfl⟩ := h
  rw [mem_run_group] at hy
  obtain ⟨y1, hy1, rfl⟩ := hy
  obtain ⟨ds, rest, rfl, h2, h3, rfl⟩ := mem_run_plus_digit.1 hy1
  obtain ⟨post, h4, rfl⟩ := (mem_run_word _ _ _ _).1 hz
  simp only at h4; subst h4
  refine ⟨ds, post, by simp, h2, ?_, by simp [setCap]⟩
  intro h0; rw [h0] at h3; simp at h3

theorem vis_complete {ds post : GoString} (h1 : IsDigits ds) (h2 : ds ≠ []) :
    visRegex.run (ds ++ ('S' :: 'M' :: post)) noCaps ≠ [] := by
  have hlen : 1 ≤ ds.length := by
    cases ds with
    | nil => exact absurd rfl h2
    | cons a l => simp
  have hmem : (ds ++ ['S', 'M'], post, setCap noCaps 1 ds) ∈
      visRegex.run (ds ++ ('S' :: 'M' :: post)) noCaps := by
    unfold visRegex
    exact mem_run_cat.2 ⟨(ds, 'S' :: 'M' :: post, setCap noCaps 1 ds),
      mem_run_group.2 ⟨(ds, _, noCaps), mem_run_plus_digit.2 ⟨ds, _, rfl, h1, hlen, rfl⟩, rfl⟩,
      (['S', 'M'], post, _), (mem_run_word _ _ _ _).2 ⟨post, by simp, rfl⟩, rfl⟩
  exact List.ne_nil_of_mem hmem

theorem vis_unique {ds post ds2 post2 : GoString} (h1 : IsDigits ds) (h2 : IsDigits ds2)
    (e : ds ++ ('S' :: 'M' :: post) = ds2 ++ ('S' :: 'M' :: post2)) : ds = ds2 := by
  have hS : ∀ (p : GoString) d t, 'S' :: 'M' :: p = d :: t → ¬ IsDigit d := by
    intro p d t e hd
    simp at e
    rw [← e.1] at hd
    exact absurd hd (by unfold IsDigit; decide)
  exact (digits_run_unique ds ds2 _ _ h1 h2 (hS post) (hS post2) e).1

theorem find_vis_none {tok : GoString} :
    FindStringSubmatch visRegex tok = none ↔ ¬ ContainsVis tok := by
  rw [find_none]
  constructor
  · rintro h ⟨pre, ds, post, e, h1, h2⟩
    exact vis_complete h1 h2 (h pre _ e)
  · intro h pre t e
    by_contra hne
    obtain ⟨x, hx⟩ := List.exists_mem_of_ne_nil _ hne
    obtain ⟨ds, post, e2, h1, h2, _⟩ := vis_sound hx
    exact h ⟨pre, ds, post, by rw [e, e2], h1, h2⟩

theorem find_vis_leftmost {tok pre ds post : GoString} (h : VisAt tok pre ds post)
    (hmin : ∀ pre2 ds2 post2, VisAt tok pre2 ds2 post2 → pre.length ≤ pre2.length) :
    ∃ w g, FindStringSubmatch visRegex tok = some (w, g) ∧ g 1 = ds := by
  obtain ⟨e, h1, h2⟩ := h
  obtain ⟨x, hx⟩ := matchAt_some_of_ne (@vis_complete ds post h1 h2)
  have hfind := find_at pre tok _ x e (by
    intro pre2 t2 e2 hlt
    by_contra hne
    obtain ⟨y, hy⟩ := List.exists_mem_of_ne_nil _ hne
    obtain ⟨ds2, post2, e3, h3, h4, _⟩ := vis_sound hy
    have := hmin pre2 ds2 post2 ⟨by rw [e2, e3], h3, h4⟩
    omega) hx
  obtain ⟨ds2, post2, e3, h3, _, c1⟩ := vis_sound (matchAt_mem hx)
  have := vis_unique h1 h3 e3
  subst this
  exact ⟨x.1, x.2.2, hfind, c1⟩

theorem parseVisibility_none (toks : List GoString) (h : ∀ t ∈ toks, ¬ ContainsVis t) :
    parseVisibility toks = [] := by
  induction toks with
  | nil => rfl
  | cons a l ih =>
    simp only [parseVisibility, find_vis_none.2 (h a (by simp))]
    exact ih (fun t ht => h t (by simp [ht]))

theorem parseVisibility_first (before : List GoString) :
    ∀ (tok : GoString) (after : List GoString) (pre ds post : GoString),
      (∀ t ∈ before, ¬ ContainsVis t) → VisAt tok pre ds post →
      (∀ pre2 ds2 post2, VisAt tok pre2 ds2 post2 → pre.length ≤ pre2.length) →
      parseVisibility (before ++ tok :: after) = ds ++ ['S', 'M'] := by
  induction before with
  | nil =>
    intro tok after pre ds post _ h hmin
    obtain ⟨w, g, hf, rfl⟩ := find_vis_leftmost h hmin
    simp only [List.nil_append, parseVisibility, hf]
  | cons a l ih =>
    intro tok after pre ds post hb h hmin
    simp only [List.cons_append, parseVisibility, find_vis_none.2 (hb a (by simp))]
    exact ih tok after pre ds post (fun t ht => hb t (by simp [ht])) h hmin

/-! ## The cloud expression -/

theorem mem_cloudCode {s : GoString} {c : Caps} {x : MatchRes} :
    x ∈ (Regex.group 1 (.alt (.alt (.alt (.word 'F' ['E', 'W']) (.word 'S' ['C', 'T']))
      (.word 'B' ['K', 'N'])) (.word 'O' ['V', 'C']))).run s c ↔
      ∃ code rest, s = code ++ rest ∧ code ∈ coverageCodes ∧
        x = (code, rest, setCap c 1 code) := by
  rw [mem_run_group]
  simp only [mem_run_alt, mem_run_word, coverageCodes]
  constructor
  · rintro ⟨y, (((⟨t, h1, rfl⟩ | ⟨t, h1, rfl⟩) | ⟨t, h1, rfl⟩) | ⟨t, h1, rfl⟩), rfl⟩
    · exact ⟨_, t, h1, by simp, rfl⟩
    · exact ⟨_, t, h1, by simp, rfl⟩
    · exact ⟨_, t, h1, by simp, rfl⟩
    · exact ⟨_, t, h1, by simp, rfl⟩
  · rintro ⟨code, rest, h1, h2, rfl⟩
    simp only [List.mem_cons, List.mem_singleton, List.not_mem_nil, or_false] at h2
    rcases h2 with rfl | rfl | rfl | rfl
    · exact ⟨(_, rest, c), Or.inl (Or.inl (Or.inl ⟨rest, h1, rfl⟩)), rfl⟩
    · exact ⟨(_, rest, c), Or.inl (Or.inl (Or.inr ⟨rest, h1, rfl⟩)), rfl⟩
    · exact ⟨(_, rest, c), Or.inl (Or.inr ⟨rest, h1, rfl⟩), rfl⟩
    · exact ⟨(_, rest, c), Or.inr ⟨rest, h1, rfl⟩, rfl⟩

theorem cloud_sound {t : GoString} {x : MatchRes} (h : x ∈ cloudRegex.run t noCaps) :
    ∃ code hh post, t = code ++ (hh ++ post) ∧ code ∈ coverageCodes ∧ IsDigits hh ∧
      hh.length = 3 ∧ x.2.2 1 = code ∧ x.2.2 2 = hh := by
  unfold cloudRegex at h
  rw [mem_run_cat] at h
  obtain ⟨y, hy, z, hz, rfl⟩ := h
  obtain ⟨code, rest, rfl, hc, rfl⟩ := mem_cloudCode.1 hy
  unfold d3 at hz
  obtain ⟨hh, post, h1, h2, h3, h4, rfl⟩ := mem_group_rep.1 hz
  simp only at h1; subst h1
  exact ⟨code, hh, post, rfl, hc, h2, by omega, by simp [setCap], by simp [setCap]⟩

theorem cloud_complete {code hh post : GoString} (hc : code ∈ coverageCodes)
    (h1 : IsDigits hh) (h2 : hh.length = 3) :
    cloudRegex.run (code ++ (hh ++ post)) noCaps ≠ [] := by
  have hmem : (code ++ hh, post, setCap (setCap noCaps 1 code) 2 hh) ∈
      cloudRegex.run (code ++ (hh ++ post)) noCaps := by
    unfold cloudRegex d3
    exact mem_run_cat.2 ⟨(code, hh ++ post, setCap noCaps 1 code),
      mem_cloudCode.2 ⟨code, _, rfl, hc, rfl⟩, (hh, post, _),
      mem_group_rep.2 ⟨hh, post, rfl, h1, by omega, by omega, rfl⟩, rfl⟩
  exact List.ne_nil_of_mem hmem

theorem code_length {code : GoString} (h : code ∈ coverageCodes) : code.length = 3 := by
  simp only [coverageCodes, List.mem_cons, List.mem_singleton, List.not_mem_nil, or_false] at h
  rcases h with rfl | rfl | rfl | rfl <;> rfl

theorem cloud_unique {code hh post code2 hh2 post2 : GoString}
    (hc : code ∈ coverageCodes) (h2 : hh.length = 3)
    (hc2 : code2 ∈ coverageCodes) (h4 : hh2.length = 3)
    (e : code ++ (hh ++ post) = code2 ++ (hh2 ++ post2)) : code = code2 ∧ hh = hh2 := by
  obtain ⟨e1, e2⟩ := List.append_inj e (by rw [code_length hc, code_length hc2])
  obtain ⟨e3, _⟩ := List.append_inj e2 (by rw [h2, h4])
  exact ⟨e1, e3⟩

theorem find_cloud_none {tok : GoString} :
    FindStringSubmatch cloudRegex tok = none ↔ ¬ ContainsCloud tok := by
  rw [find_none]
  constructor
  · rintro h ⟨pre, code, hh, post, e, hc, h1, h2⟩
    exact cloud_complete hc h1 h2 (h pre _ e)
  · intro h pre t e
    by_contra hne
    obtain ⟨x, hx⟩ := List.exists_mem_of_ne_nil _ hne
    obtain ⟨code, hh, post, e2, hc, h1, h2, _⟩ := cloud_sound hx
    exact h ⟨pre, code, hh, post, by rw [e, e2], hc, h1, h2⟩

theorem find_cloud_leftmost {tok pre code hh post : GoString} (h : CloudAt tok pre code hh post)
    (hmin : ∀ pre2 code2 hh2 post2, CloudAt tok pre2 code2 hh2 post2 →
      pre.length ≤ pre2.length) :
    ∃ w g, FindStringSubmatch cloudRegex tok = some (w, g) ∧ g 1 = code ∧ g 2 = hh := by
  obtain ⟨e, hc, h1, h2⟩ := h
  obtain ⟨x, hx⟩ := matchAt_some_of_ne (@cloud_complete code hh post hc h1 h2)
  have hfind := find_at pre tok _ x e (by
    intro pre2 t2 e2 hlt
    by_contra hne
    obtain ⟨y, hy⟩ := List.exists_mem_of_ne_nil _ hne
    obtain ⟨code2, hh2, post2, e3, hc2, h3, h4, _⟩ := cloud_sound hy
    have := hmin pre2 code2 hh2 post2 ⟨by rw [e2, e3], hc2, h3, h4⟩
    omega) hx
  obtain ⟨code2, hh2, post2, e3, hc2, h3, h4, c1, c2⟩ := cloud_sound (matchAt_mem hx)
  obtain ⟨rfl, rfl⟩ := cloud_unique hc h2 hc2 h4 e3
  exact ⟨x.1, x.2.2, hfind, c1, c2⟩

theorem parseClouds_filterMap (toks : List GoString) :
    parseClouds toks = toks.filterMap cloudLayerOf := by
  induction toks with
  | nil => rfl
  | cons a l ih =>
    cases hf : FindStringSubmatch cloudRegex a with
    | none => simp [parseClouds, cloudLayerOf, hf, ih, List.filterMap_cons]
    | some w => simp [parseClouds, cloudLayerOf, hf, ih, List.filterMap_cons]

theorem cloudLayerOf_none {tok : GoString} (h : ¬ ContainsCloud tok) :
    cloudLayerOf tok = none := by
  unfold cloudLayerOf
  rw [find_cloud_none.2 h]

theorem cloudLayerOf_leftmost {tok pre code hh post : GoString}
    (h : CloudAt tok pre code hh post)
    (hmin : ∀ pre2 code2 hh2 post2, CloudAt tok pre2 code2 hh2 post2 →
      pre.length ≤ pre2.length) :
    cloudLayerOf tok = some ⟨code, (decimal hh : Int) * 100⟩ := by
  obtain ⟨w, g, hf, rfl, rfl⟩ := find_cloud_leftmost h hmin
  obtain ⟨_, _, h1, h2⟩ := h
  unfold cloudLayerOf
  rw [hf]
  simp only
  rw [atoi_digits _ h1 (by intro h0; rw [h0] at h2; simp at h2) (by omega)]

theorem cloudLayerOf_some {tok : GoString} {l : CloudLayer} (h : cloudLayerOf tok = some l) :
    ContainsCloud tok ∧ l.Coverage ∈ coverageCodes ∧
      ∃ k : Nat, k ≤ 999 ∧ l.Height = (k : Int) * 100 := by
  unfold cloudLayerOf at h
  cases hf : FindStringSubmatch cloudRegex tok with
  | none => rw [hf] at h; cases h
  | some w =>
    rw [hf] at h
    simp only [Option.some.injEq] at h
    obtain ⟨pre, t, x, e, hx, hw, _⟩ := find_some tok w hf
    obtain ⟨code, hh, post, e2, hc, h1, h2, c1, c2⟩ := cloud_sound (matchAt_mem hx)
    subst hw
    simp only at h
    subst h
    refine ⟨⟨pre, code, hh, post, by rw [e, e2], hc, h1, h2⟩, by simp only [c1]; exact hc,
      decimal hh, ?_, ?_⟩
    · have := decimal_lt hh h1
      rw [h2] at this
      omega
    · simp only [c2]
      rw [atoi_digits _ h1 (by intro h0; rw [h0] at h2; simp at h2) (by omega)]

/-! ## The temperature expression -/

theorem temp_sound {t : GoString} {x : MatchRes} (h : x ∈ tempRegex.run t noCaps) :
    ∃ a b post, t = a ++ ('/' :: (b ++ post)) ∧ IsDigits a ∧ a.length = 2 ∧ IsDigits b ∧
      b.length = 2 ∧ x.2.2 1 = a ∧ x.2.2 2 = b := by
  unfold tempRegex d2 at h
  rw [mem_run_cat] at h
  obtain ⟨y, hy, z, hz, rfl⟩ := h
  obtain ⟨a, r1, rfl, ha1, ha2, ha3, rfl⟩ := mem_group_rep.1 hy
  rw [mem_run_cat] at hz
  obtain ⟨y2, hy2, z2, hz2, rfl⟩ := hz
  obtain ⟨r2, h2, rfl⟩ := mem_run_lit.1 hy2
  simp only at h2; subst h2
  obtain ⟨b, post, h3, hb1, hb2, hb3, rfl⟩ := mem_group_rep.1 hz2
  simp only at h3; subst h3
  refine ⟨a, b, post, rfl, ha1, by omega, hb1, by omega, ?_, by simp [setCap]⟩
  simp [setCap]

theorem temp_complete {a b post : GoString} (ha1 : IsDigits a) (ha2 : a.length = 2)
    (hb1 : IsDigits b) (hb2 : b.length = 2) :
    tempRegex.run (a ++ ('/' :: (b ++ post))) noCaps ≠ [] := by
  have hmem : (a ++ (['/'] ++ b), post, setCap (setCap noCaps 1 a) 2 b) ∈
      tempRegex.run (a ++ ('/' :: (b ++ post))) noCaps := by
    unfold tempRegex d2
    exact mem_run_cat.2 ⟨(a, '/' :: (b ++ post), setCap noCaps 1 a),
      mem_group_rep.2 ⟨a, _, rfl, ha1, by omega, by omega, rfl⟩, (['/'] ++ b, post, _),
      mem_run_cat.2 ⟨(['/'], b ++ post, _), mem_run_lit.2 ⟨_, rfl, rfl⟩, (b, post, _),
        mem_group_rep.2 ⟨b, post, rfl, hb1, by omega, by omega, rfl⟩, rfl⟩, rfl⟩
  exact List.ne_nil_of_mem hmem

theorem temp_unique {a b post a2 b2 post2 : GoString} (ha : a.length = 2) (hb : b.length = 2)
    (ha2 : a2.length = 2) (hb2 : b2.length = 2)
    (e : a ++ ('/' :: (b ++ post)) = a2 ++ ('/' :: (b2 ++ post2))) : a = a2 ∧ b = b2 := by
  obtain ⟨e1, e2⟩ := List.append_inj e (by rw [ha, ha2])
  simp only [List.cons.injEq, true_and] at e2
  obtain ⟨e3, _⟩ := List.append_inj e2 (by rw [hb, hb2])
  exact ⟨e1, e3⟩

theorem find_temp_none {tok : GoString} :
    FindStringSubmatch tempRegex tok = none ↔ ¬ ContainsTemp tok := by
  rw [find_none]
  constructor
  · rintro h ⟨pre, a, b, post, e, h1, h2, h3, h4⟩
    exact temp_complete h1 h2 h3 h4 (h pre _ e)
  · intro h pre t e
    by_contra hne
    obtain ⟨x, hx⟩ := List.exists_mem_of_ne_nil _ hne
    obtain ⟨a, b, post, e2, h1, h2, h3, h4, _⟩ := temp_sound hx
    exact h ⟨pre, a, b, post, by rw [e, e2], h1, h2, h3, h4⟩

theorem find_temp_leftmost {tok pre a b post : GoString} (h : TempAt tok pre a b post)
    (hmin : ∀ pre2 a2 b2 post2, TempAt tok pre2 a2 b2 post2 → pre.length ≤ pre2.length) :
    ∃ w g, FindStringSubmatch tempRegex tok = some (w, g) ∧ g 1 = a ∧ g 2 = b := by
  obtain ⟨e, h1, h2, h3, h4⟩ := h
  obtain ⟨x, hx⟩ := matchAt_some_of_ne (@temp_complete a b post h1 h2 h3 h4)
  have hfind := find_at pre tok _ x e (by
    intro pre2 t2 e2 hlt
    by_contra hne
    obtain ⟨y, hy⟩ := List.exists_mem_of_ne_nil _ hne
    obtain ⟨a2, b2, post2, e3, k1, k2, k3, k4, _⟩ := temp_sound hy
    have := hmin pre2 a2 b2 post2 ⟨by rw [e2, e3], k1, k2, k3, k4⟩
    omega) hx
  obtain ⟨a2, b2, post2, e3, _, k2, _, k4, c1, c2⟩ := temp_sound (matchAt_mem hx)
  obtain ⟨rfl, rfl⟩ := temp_unique h2 h4 k2 k4 e3
  exact ⟨x.1, x.2.2, hfind, c1, c2⟩

theorem parseTemp_none (toks : List GoString) (h : ∀ t ∈ toks, ¬ ContainsTemp t) :
    parseTemp toks = (0, 0) := by
  induction toks with
  | nil => rfl
  | cons a l ih =>
    simp only [parseTemp, find_temp_none.2 (h a (by simp))]
    exact ih (fun t ht => h t (by simp [ht]))

theorem parseTemp_first (before : List GoString) :
    ∀ (tok : GoString) (after : List GoString) (pre a b post : GoString),
      (∀ t ∈ before, ¬ ContainsTemp t) → TempAt tok pre a b post →
      (∀ pre2 a2 b2 post2, TempAt tok pre2 a2 b2 post2 → pre.length ≤ pre2.length) →
      parseTemp (before ++ tok :: after) = ((decimal a : ℚ), (decimal b : ℚ)) := by
  induction before with
  | nil =>
    intro tok after pre a b post _ h hmin
    obtain ⟨w, g, hf, rfl, rfl⟩ := find_temp_leftmost h hmin
    obtain ⟨_, h1, h2, h3, h4⟩ := h
    simp only [List.nil_append, parseTemp, hf]
    rw [parseFloat_digits _ h1 (by intro h0; rw [h0] at h2; simp at h2),
      parseFloat_digits _ h3 (by intro h0; rw [h0] at h4; simp at h4)]
  | cons x l ih =>
    intro tok after pre a b post hb h hmin
    simp only [List.cons_append, parseTemp, find_temp_none.2 (hb x (by simp))]
    exact ih tok after pre a b post (fun t ht => hb t (by simp [ht])) h hmin

/-! ## The claims -/

/-- C1, as stated, fails: in `KBFI ééé X` the second token has three characters, fewer than
six, yet `ParseMETAR` returns a record and no error, because Go's `len` counts the six bytes
of the token's UTF-8 encoding. -/
theorem short_in_characters_accepted :
    (∃ t, (Fields "KBFI ééé X".toList)[1]? = some t ∧ t.length < 6) ∧
      ¬ ∃ m e, ParseMETAR ⟨2024, 5⟩ "KBFI ééé X".toList = .ret m (some e) := by
  refine ⟨⟨"ééé".toList, by decide, by decide⟩, ?_⟩
  rintro ⟨m, e, h⟩
  have h2 : ∃ m2, ParseMETAR ⟨2024, 5⟩ "KBFI ééé X".toList = .ret m2 none := ⟨_, rfl⟩
  obtain ⟨m2, h2⟩ := h2
  rw [h2] at h
  cases h

/-- C1 (amended): for every input that splits on white space into fewer than 2 tokens, or
whose second token has fewer than 6 bytes in UTF-8 (fewer than 6 characters, for a token of
ASCII characters), `ParseMETAR` returns an error and not a successful record. -/
theorem malformed_report_rejected (now : Clock) (s : GoString)
    (h : (Fields s).length < 2 ∨
      ∃ t, (Fields s)[1]? = some t ∧ (len t < 6 ∨ (t.length < 6 ∧ ∀ c ∈ t, c.toNat < 128))) :
    ∃ m e, ParseMETAR now s = .ret m (some e) := by
  unfold ParseMETAR
  generalize Fields s = parts at h
  match parts, h with
  | [], _ => exact ⟨_, _, rfl⟩
  | [_], _ => exact ⟨_, _, rfl⟩
  | p0 :: p1 :: more, h =>
    have h6 : ¬ (len p1 ≥ 6) := by
      rcases h with h | ⟨t, ht, h⟩
      · simp only [List.length_cons] at h
        omega
      · simp at ht
        subst ht
        rcases h with h | ⟨h, ha⟩
        · omega
        · rw [len_ascii p1 ha]; omega
    simp only [h6, if_false]
    exact ⟨_, _, rfl⟩

/-- Witness of C1 (amended): `KBFI 18`, whose second token has two bytes. -/
theorem malformed_report_rejected_witness :
    (∃ t, (Fields "KBFI 18".toList)[1]? = some t ∧ len t < 6) ∧
      ∃ m e, ParseMETAR ⟨2024, 5⟩ "KBFI 18".toList = .ret m (some e) :=
  ⟨⟨"18".toList, by decide, by decide⟩,
    malformed_report_rejected ⟨2024, 5⟩ "KBFI 18".toList
      (Or.inr ⟨"18".toList, by decide, Or.inl (by decide)⟩)⟩

/-- C2: on the two-token report `KBFI 261853Z` the call does not return: the slice
expression `parts[3:]` of the visibility loop is out of range and the run panics. -/
theorem two_token_report_panics (now : Clock) :
    ParseMETAR now "KBFI 261853Z".toList = .panic 3 2 := by
  rfl

/-- C3: the sample report parses to station `KBFI`, day 26, hour 18, minute 53, wind
180 at 15 gusting 22, visibility `10SM`, layers FEW 2000, SCT 3500, BKN 25000,
temperature 22, dew point 15, altimeter 2992/100 and remarks `RMK AO2 SLP132`. -/
theorem sample_report_parsed (now : Clock) :
    ∃ m, ParseMETAR now
        "KBFI 261853Z 18015G22KT 10SM FEW020 SCT035 BKN250 22/15 A2992 RMK AO2 SLP132".toList
        = .ret m none ∧
      m.StationID = "KBFI".toList ∧
      m.ObservationTime = .date now.year now.month 26 18 53 ∧
      m.Wind = ⟨180, 15, 22⟩ ∧
      m.Visibility = "10SM".toList ∧
      m.CloudLayers = [⟨"FEW".toList, 2000⟩, ⟨"SCT".toList, 3500⟩, ⟨"BKN".toList, 25000⟩] ∧
      m.Temperature = 22 ∧ m.DewPoint = 15 ∧
      m.Altimeter = 2992 / 100 ∧
      m.Remarks = "RMK AO2 SLP132".toList := by
  exact ⟨_, rfl, rfl, rfl, rfl, rfl, rfl, rfl, rfl, rfl, rfl⟩

/-- C4, as stated, fails: on `KBFI 18` the record returned with the error is not the zero
record, its `StationID` is `KBFI`. -/
theorem short_time_error_keeps_station :
    ∃ m e, ParseMETAR ⟨2024, 5⟩ "KBFI 18".toList = .ret m (some e) ∧
      m.StationID = "KBFI".toList ∧ m ≠ METAR.zero := by
  refine ⟨_, _, rfl, rfl, ?_⟩
  intro h
  have := congrArg METAR.StationID h
  exact absurd this (by decide)

/-- C4 (amended): when `ParseMETAR` returns an error, either the report has fewer than 2
tokens and the record is the zero record, or the second token is shorter than 6 bytes and
the record is the zero record except for `StationID`, which holds the first token. -/
theorem error_record_shape (now : Clock) (s : GoString) (m : METAR) (e : ParseError)
    (h : ParseMETAR now s = .ret m (some e)) :
    ((Fields s).length < 2 ∧ e = .incomplete s ∧ m = METAR.zero) ∨
    (∃ p0 p1 more, Fields s = p0 :: p1 :: more ∧ len p1 < 6 ∧
      e = .invalidObservationTime s ∧ m = { METAR.zero with StationID := p0 }) :=
  parse_err h

/-- Witness of C4 (amended): `KBFI 18`. -/
theorem error_record_shape_witness :
    ∃ m e, ParseMETAR ⟨2024, 5⟩ "KBFI 18".toList = .ret m (some e) ∧
      (((Fields "KBFI 18".toList).length < 2 ∧ e = .incomplete "KBFI 18".toList ∧
          m = METAR.zero) ∨
        (∃ p0 p1 more, Fields "KBFI 18".toList = p0 :: p1 :: more ∧ len p1 < 6 ∧
          e = .invalidObservationTime "KBFI 18".toList ∧
          m = { METAR.zero with StationID := p0 })) :=
  ⟨_, _, rfl, error_record_shape ⟨2024, 5⟩ "KBFI 18".toList _ _ rfl⟩

/-- C5, as stated, fails: the third token `X18015KT` does not have the wind form as a whole,
yet the wind is read from inside it (direction 180, speed 15) instead of staying all zero. -/
theorem wind_inside_token_read :
    ∃ m, ParseMETAR ⟨2024, 5⟩ "KBFI 261853Z X18015KT".toList = .ret m none ∧
      (Fields "KBFI 261853Z X18015KT".toList)[2]? = some "X18015KT".toList ∧
      (¬ ∃ D S G, WindAt "X18015KT".toList [] D S G []) ∧
      m.Wind = ⟨180, 15, 0⟩ := by
  refine ⟨_, rfl, by decide, ?_, rfl⟩
  rintro ⟨D, S, G, e, hD, _, _⟩
  have hl := windDir_length hD
  match D, hl, hD, e with
  | [d1, d2, d3], _, hD, e =>
    simp only [String.toList, List.nil_append, List.cons_append, List.cons.injEq] at e
    obtain ⟨rfl, _⟩ := e
    rcases hD with ⟨h1, _⟩ | h1
    · exact absurd (h1 'X' (by simp)) (by unfold IsDigit; decide)
    · simp at h1

/-- C5 (amended): for every successfully parsed report, wind is determined by the third
token alone: if that token contains a substring of the form (three digits or VRB)
(2 to 3 digits)(optionally G followed by 2 to 3 digits)KT, wind is read from the leftmost
such substring: direction is 0 for VRB and otherwise the three-digit number, speed is the
second digit group, gust is the number after G, or 0 without a G group; in particular so
when the token as a whole has that form; if the token contains no such substring,
direction, speed and gust are all 0. -/
theorem wind_from_third_token (now : Clock) (s : GoString) (m : METAR)
    (h : ParseMETAR now s = .ret m none) :
    ∀ tok, (Fields s)[2]? = some tok →
      (∀ pre D S G post, WindAt tok pre D S G post →
        (∀ pre2 D2 S2 G2 post2, WindAt tok pre2 D2 S2 G2 post2 → pre.length ≤ pre2.length) →
        m.Wind = windValue D S G) ∧
      (∀ D S G, WindAt tok [] D S G [] → m.Wind = windValue D S G) ∧
      ((¬ ∃ pre D S G post, WindAt tok pre D S G post) → m.Wind = ⟨0, 0, 0⟩) := by
  obtain ⟨p0, p1, p2, rest, hF, _, _, hW, _⟩ := parse_ok h
  intro tok htok
  have e : p2 = tok := by
    rw [hF] at htok
    simpa using htok
  subst e
  refine ⟨?_, ?_, ?_⟩
  · intro pre D S G post hat hmin
    rw [hW]; exact parseWind_leftmost hat hmin
  · intro D S G hat
    rw [hW]; exact parseWind_leftmost hat (by intros; simp)
  · intro hno
    rw [hW]; exact parseWind_none hno

/-- Witness of C5 (amended): `KBFI 261853Z VRB03KT` gives direction 0, speed 3, gust 0. -/
theorem wind_from_third_token_witness :
    ∃ m, ParseMETAR ⟨2024, 5⟩ "KBFI 261853Z VRB03KT".toList = .ret m none ∧
      m.Wind = ⟨0, 3, 0⟩ := by
  refine ⟨_, rfl, ?_⟩
  obtain ⟨_, hw, _⟩ :=
    wind_from_third_token ⟨2024, 5⟩ "KBFI 261853Z VRB03KT".toList _ rfl
      "VRB03KT".toList (by decide)
  have := hw "VRB".toList "03".toList [] ⟨by decide, Or.inr rfl,
    ⟨by intro d hd; simp [String.toList] at hd; rcases hd with rfl | rfl <;>
      (unfold IsDigit; decide), by decide, by decide⟩, Or.inl rfl⟩
  rw [this]
  decide

/-- C6, as stated, fails: in `KBFI 261853Z 18015KT 1/2SM` no token at index 3 or later
consists entirely of digits followed by `SM`, yet visibility is `2SM`, read from inside
the token `1/2SM`, and not the empty string. -/
theorem visibility_inside_token_read :
    ∃ m, ParseMETAR ⟨2024, 5⟩ "KBFI 261853Z 18015KT 1/2SM".toList = .ret m none ∧
      (Fields "KBFI 261853Z 18015KT 1/2SM".toList).drop 3 = ["1/2SM".toList] ∧
      (¬ ∃ ds, VisAt "1/2SM".toList [] ds []) ∧
      m.Visibility = "2SM".toList := by
  refine ⟨_, rfl, by decide, ?_, rfl⟩
  rintro ⟨ds, e, hd, _⟩
  have e2 : "1/2SM".toList = ['1', '/', '2'] ++ ['S', 'M'] := by decide
  rw [e2] at e
  simp only [List.nil_append] at e
  have := (List.append_inj' e (by simp)).1
  exact absurd (hd '/' (by rw [← this]; simp)) (by unfold IsDigit; decide)

/-- C6 (amended): for every successfully parsed report, visibility is read from the first
token at index 3 or later that contains one or more digits followed by `SM`: it is the
leftmost such substring of that token (the token verbatim when the token as a whole has that
form), and the empty string when no token at index 3 or later contains such a substring;
tokens at indices 0 to 2 are never considered. -/
theorem visibility_first_containing (now : Clock) (s : GoString) (m : METAR)
    (h : ParseMETAR now s = .ret m none) :
    (∀ before tok after pre ds post, (Fields s).drop 3 = before ++ tok :: after →
        (∀ t ∈ before, ¬ ContainsVis t) → VisAt tok pre ds post →
        (∀ pre2 ds2 post2, VisAt tok pre2 ds2 post2 → pre.length ≤ pre2.length) →
        m.Visibility = ds ++ ['S', 'M']) ∧
      (∀ before tok after ds, (Fields s).drop 3 = before ++ tok :: after →
        (∀ t ∈ before, ¬ ContainsVis t) → VisAt tok [] ds [] → m.Visibility = tok) ∧
      ((∀ t ∈ (Fields s).drop 3, ¬ ContainsVis t) → m.Visibility = []) := by
  obtain ⟨p0, p1, p2, rest, hF, _, _, _, hV, _⟩ := parse_ok h
  have hd : (Fields s).drop 3 = rest := by rw [hF]; rfl
  rw [hd]
  refine ⟨?_, ?_, ?_⟩
  · intro before tok after pre ds post e hb hat hmin
    rw [hV, e]; exact parseVisibility_first before tok after pre ds post hb hat hmin
  · intro before tok after ds e hb hat
    rw [hV, e, parseVisibility_first before tok after [] ds [] hb hat (by intros; simp)]
    have := hat.1
    simpa using this.symm
  · intro hno
    rw [hV]; exact parseVisibility_none rest hno

/-- Witness of C6 (amended): in the sample report the token at index 3 is `10SM`. -/
theorem visibility_first_containing_witness :
    ∃ m, ParseMETAR ⟨2024, 5⟩ "KBFI 261853Z 18015G22KT 10SM FEW020".toList = .ret m none ∧
      m.Visibility = "10SM".toList := by
  refine ⟨_, rfl, ?_⟩
  obtain ⟨_, hw, _⟩ :=
    visibility_first_containing ⟨2024, 5⟩ "KBFI 261853Z 18015G22KT 10SM FEW020".toList _ rfl
  exact hw [] "10SM".toList ["FEW020".toList] "10".toList (by decide) (by simp)
    ⟨by decide, by intro d hd; simp [String.toList] at hd; rcases hd with rfl | rfl <;>
      (unfold IsDigit; decide), by decide⟩

/-- C7, as stated, fails: in `KBFI 261853Z 18015KT R06/2000FT` no token consists entirely of
two digits, a slash and two digits, yet temperature is 6 and dew point 20, read from inside
the token `R06/2000FT`, and not 0. -/
theorem temperature_inside_token_read :
    ∃ m, ParseMETAR ⟨2024, 5⟩ "KBFI 261853Z 18015KT R06/2000FT".toList = .ret m none ∧
      (∀ t ∈ Fields "KBFI 261853Z 18015KT R06/2000FT".toList, ¬ ∃ a b, TempAt t [] a b []) ∧
      m.Temperature = 6 ∧ m.DewPoint = 20 := by
  refine ⟨_, rfl, ?_, rfl, rfl⟩
  intro t ht
  rintro ⟨a, b, e, _, ha, _, hb⟩
  have hl : t.length = 5 := by rw [e]; simp [ha, hb]
  have hF : Fields "KBFI 261853Z 18015KT R06/2000FT".toList
      = ["KBFI".toList, "261853Z".toList, "18015KT".toList, "R06/2000FT".toList] := by decide
  rw [hF] at ht
  simp only [List.mem_cons, List.mem_singleton, List.not_mem_nil, or_false] at ht
  rcases ht with rfl | rfl | rfl | rfl <;> exact absurd hl (by decide)

/-- C7 (amended): for every successfully parsed report, temperature and dewPoint are the two
two-digit numbers of the leftmost substring of the form two digits, slash, two digits in the
first token, scanning all tokens in order, that contains such a substring (the token's own
two numbers when the token as a whole has that form); later tokens are ignored, and when no
token contains such a substring both temperature and dewPoint are 0. -/
theorem temperature_first_containing (now : Clock) (s : GoString) (m : METAR)
    (h : ParseMETAR now s = .ret m none) :
    (∀ before tok after pre a b post, Fields s = before ++ tok :: after →
        (∀ t ∈ before, ¬ ContainsTemp t) → TempAt tok pre a b post →
        (∀ pre2 a2 b2 post2, TempAt tok pre2 a2 b2 post2 → pre.length ≤ pre2.length) →
        m.Temperature = (decimal a : ℚ) ∧ m.DewPoint = (decimal b : ℚ)) ∧
      (∀ before tok after a b, Fields s = before ++ tok :: after →
        (∀ t ∈ before, ¬ ContainsTemp t) → TempAt tok [] a b [] →
        m.Temperature = (decimal a : ℚ) ∧ m.DewPoint = (decimal b : ℚ)) ∧
      ((∀ t ∈ Fields s, ¬ ContainsTemp t) → m.Temperature = 0 ∧ m.DewPoint = 0) := by
  obtain ⟨p0, p1, p2, rest, _, _, _, _, _, _, hT, hD, _⟩ := parse_ok h
  refine ⟨?_, ?_, ?_⟩
  · intro before tok after pre a b post e hb hat hmin
    rw [hT, hD, e, parseTemp_first before tok after pre a b post hb hat hmin]
    exact ⟨rfl, rfl⟩
  · intro before tok after a b e hb hat
    rw [hT, hD, e, parseTemp_first before tok after [] a b [] hb hat (by intros; simp)]
    exact ⟨rfl, rfl⟩
  · intro hno
    rw [hT, hD, parseTemp_none _ hno]
    exact ⟨rfl, rfl⟩

/-- Witness of C7 (amended): in `KBFI 261853Z 18015KT 22/15 23/16` the first token with the
temperature form is `22/15`, so temperature is 22 and dew point 15; the later `23/16` is
ignored. -/
theorem temperature_first_containing_witness :
    ∃ m, ParseMETAR ⟨2024, 5⟩ "KBFI 261853Z 18015KT 22/15 23/16".toList = .ret m none ∧
      m.Temperature = 22 ∧ m.DewPoint = 15 := by
  refine ⟨_, rfl, ?_⟩
  obtain ⟨_, hw, _⟩ :=
    temperature_first_containing ⟨2024, 5⟩ "KBFI 261853Z 18015KT 22/15 23/16".toList _ rfl
  have hdig : ∀ x : GoString, x = "22".toList ∨ x = "15".toList → IsDigits x := by
    intro x hx d hd
    rcases hx with rfl | rfl <;>
      (simp [String.toList] at hd; rcases hd with rfl | rfl <;> (unfold IsDigit; decide))
  have key := hw ["KBFI".toList, "261853Z".toList, "18015KT".toList] "22/15".toList
    ["23/16".toList] "22".toList "15".toList (by decide)
    (by
      intro t ht
      rintro ⟨pre, a, b, post, e, _⟩
      have hs : '/' ∈ t := by rw [e]; simp
      simp only [List.mem_cons, List.mem_singleton, List.not_mem_nil, or_false] at ht
      rcases ht with rfl | rfl | rfl <;> exact absurd hs (by decide))
    ⟨by decide, hdig _ (Or.inl rfl), by decide, hdig _ (Or.inr rfl), by decide⟩
  have h22 : decimal "22".toList = 22 := by decide
  have h15 : decimal "15".toList = 15 := by decide
  rw [h22, h15] at key
  exact ⟨by rw [key.1]; norm_num, by rw [key.2]; norm_num⟩

/-- C8, as stated, fails: in `KBFI 261853Z 18015KT BKN025CB` no token consists entirely of a
coverage code followed by three digits, yet the token `BKN025CB` contributes the layer
(BKN, 2500), so the list of layers is not empty. -/
theorem cloud_inside_token_read :
    ∃ m, ParseMETAR ⟨2024, 5⟩ "KBFI 261853Z 18015KT BKN025CB".toList = .ret m none ∧
      (∀ t ∈ Fields "KBFI 261853Z 18015KT BKN025CB".toList,
        ¬ ∃ code hh, CloudAt t [] code hh []) ∧
      m.CloudLayers = [⟨"BKN".toList, 2500⟩] := by
  refine ⟨_, rfl, ?_, rfl⟩
  intro t ht
  rintro ⟨code, hh, e, hc, _, hl⟩
  have hlen : t.length = 6 := by rw [e]; simp [code_length hc, hl]
  have hF : Fields "KBFI 261853Z 18015KT BKN025CB".toList
      = ["KBFI".toList, "261853Z".toList, "18015KT".toList, "BKN025CB".toList] := by decide
  rw [hF] at ht
  simp only [List.mem_cons, List.mem_singleton, List.not_mem_nil, or_false] at ht
  rcases ht with rfl | rfl | rfl | rfl <;> exact absurd hlen (by decide)

/-- C8 (amended): for every successfully parsed report, cloudLayers is exactly the list, in
token order, of one layer per token that contains a coverage code FEW, SCT, BKN or OVC
followed by three digits, scanning all tokens of the report, with coverage equal to the code
and height equal to the three-digit number times 100, both taken from the leftmost such
substring of the token (from the token itself when it has that form as a whole); tokens
containing no such substring contribute no layer, so the number of layers equals the number
of tokens containing one and is 0 when there are none. -/
theorem cloud_layers_in_order (now : Clock) (s : GoString) (m : METAR)
    (h : ParseMETAR now s = .ret m none) :
    ∃ layerOf : GoString → Option CloudLayer,
      m.CloudLayers = (Fields s).filterMap layerOf ∧
      (∀ tok, (layerOf tok = none ↔ ¬ ContainsCloud tok) ∧
        (∀ pre code hh post, CloudAt tok pre code hh post →
          (∀ pre2 code2 hh2 post2, CloudAt tok pre2 code2 hh2 post2 →
            pre.length ≤ pre2.length) →
          layerOf tok = some ⟨code, (decimal hh : Int) * 100⟩) ∧
        (∀ code hh, CloudAt tok [] code hh [] →
          layerOf tok = some ⟨code, (decimal hh : Int) * 100⟩)) ∧
      m.CloudLayers.length = ((Fields s).filter fun t => (layerOf t).isSome).length ∧
      ((∀ t ∈ Fields s, ¬ ContainsCloud t) → m.CloudLayers = []) := by
  obtain ⟨p0, p1, p2, rest, _, _, _, _, _, hC, _⟩ := parse_ok h
  have hnone : ∀ tok, cloudLayerOf tok = none ↔ ¬ ContainsCloud tok := by
    intro tok
    constructor
    · intro h0 hc
      obtain ⟨pre, code, hh, post, e, hcode, h1, h2⟩ := hc
      unfold cloudLayerOf at h0
      cases hf : FindStringSubmatch cloudRegex tok with
      | none => exact find_cloud_none.1 hf ⟨pre, code, hh, post, e, hcode, h1, h2⟩
      | some w => rw [hf] at h0; cases h0
    · exact cloudLayerOf_none
  refine ⟨cloudLayerOf, by rw [hC, parseClouds_filterMap], ?_, ?_, ?_⟩
  · intro tok
    exact ⟨hnone tok, fun pre code hh post hat hmin => cloudLayerOf_leftmost hat hmin,
      fun code hh hat => cloudLayerOf_leftmost hat (by intros; simp)⟩
  · rw [hC, parseClouds_filterMap]
    generalize Fields s = l
    induction l with
    | nil => rfl
    | cons a t ih =>
      cases ha : cloudLayerOf a with
      | none => simp [List.filterMap_cons, List.filter_cons, ha, ih]
      | some v => simp [List.filterMap_cons, List.filter_cons, ha, ih]
  · intro hno
    rw [hC, parseClouds_filterMap]
    apply List.filterMap_eq_nil_iff.2
    intro t ht
    exact cloudLayerOf_none (hno t ht)

/-- Witness of C8 (amended): `KBFI 261853Z 18015KT FEW020 SCT035 BKN250` has three tokens of
the cloud form and its layers are (FEW, 2000), (SCT, 3500), (BKN, 25000), in token order. -/
theorem cloud_layers_in_order_witness :
    ∃ m, ParseMETAR ⟨2024, 5⟩ "KBFI 261853Z 18015KT FEW020 SCT035 BKN250".toList
        = .ret m none ∧
      m.CloudLayers = [⟨"FEW".toList, 2000⟩, ⟨"SCT".toList, 3500⟩, ⟨"BKN".toList, 25000⟩] := by
  refine ⟨_, rfl, ?_⟩
  obtain ⟨f, hEq, hf, _, _⟩ :=
    cloud_layers_in_order ⟨2024, 5⟩ "KBFI 261853Z 18015KT FEW020 SCT035 BKN250".toList _ rfl
  refine hEq.trans ?_
  have hF : Fields "KBFI 261853Z 18015KT FEW020 SCT035 BKN250".toList
      = ["KBFI".toList, "261853Z".toList, "18015KT".toList, "FEW020".toList,
          "SCT035".toList, "BKN250".toList] := by decide
  have hno : ∀ t : GoString, ¬ ('E' ∈ t ∨ 'C' ∈ t ∨ 'N' ∈ t) → f t = none := by
    intro t ht
    apply (hf t).1.2
    rintro ⟨pre, code, hh, post, e, hc, _, _⟩
    apply ht
    rw [e]
    simp only [coverageCodes, List.mem_cons, List.mem_singleton, List.not_mem_nil,
      or_false] at hc
    rcases hc with rfl | rfl | rfl | rfl <;> simp
  have hdig : ∀ x : GoString,
      x = "020".toList ∨ x = "035".toList ∨ x = "250".toList → IsDigits x := by
    intro x hx d hd
    rcases hx with rfl | rfl | rfl <;>
      (simp [String.toList] at hd; rcases hd with rfl | rfl | rfl <;>
        (unfold IsDigit; decide))
  have h1 := (hf "FEW020".toList).2.2 "FEW".toList "020".toList
    ⟨by decide, by decide, hdig _ (Or.inl rfl), by decide⟩
  have h2 := (hf "SCT035".toList).2.2 "SCT".toList "035".toList
    ⟨by decide, by decide, hdig _ (Or.inr (Or.inl rfl)), by decide⟩
  have h3 := (hf "BKN250".toList).2.2 "BKN".toList "250".toList
    ⟨by decide, by decide, hdig _ (Or.inr (Or.inr rfl)), by decide⟩
  rw [hF]
  simp only [List.filterMap_cons, List.filterMap_nil, hno "KBFI".toList (by decide),
    hno "261853Z".toList (by decide), hno "18015KT".toList (by decide), h1, h2, h3]
  decide

/-- C9: for every successfully parsed report, if some token equals `RMK` then remarks is the
tokens from the first such token to the end joined with single spaces, it starts with `RMK`,
and splitting it on white space gives back that suffix of the token list; if no token equals
`RMK`, remarks is the empty string. -/
theorem remarks_from_rmk (now : Clock) (s : GoString) (m : METAR)
    (h : ParseMETAR now s = .ret m none) :
    (∀ pre post, Fields s = pre ++ ['R', 'M', 'K'] :: post → ['R', 'M', 'K'] ∉ pre →
        m.Remarks = Join (['R', 'M', 'K'] :: post) [' '] ∧
        (∃ r, m.Remarks = ['R', 'M', 'K'] ++ r) ∧
        Fields m.Remarks = ['R', 'M', 'K'] :: post) ∧
      (['R', 'M', 'K'] ∈ Fields s →
        ∃ pre post, Fields s = pre ++ ['R', 'M', 'K'] :: post ∧ ['R', 'M', 'K'] ∉ pre) ∧
      (['R', 'M', 'K'] ∉ Fields s → m.Remarks = []) := by
  obtain ⟨p0, p1, p2, rest, _, _, _, _, _, _, _, _, _, hR⟩ := parse_ok h
  refine ⟨?_, ?_, ?_⟩
  · intro pre post e hpre
    have hidx : indexOf (Fields s) ['R', 'M', 'K'] = pre.length := by
      rw [e]; exact indexOf_first pre post _ hpre
    have hrem : m.Remarks = Join (['R', 'M', 'K'] :: post) [' '] := by
      rw [hR]
      unfold parseRemarks
      simp only [hidx]
      rw [if_pos (by omega)]
      rw [e]
      simp
    refine ⟨hrem, ?_, ?_⟩
    · rw [hrem]; exact join_cons_head _ _
    · rw [hrem]
      apply fields_join
      intro tok htok
      apply fields_clean s
      rw [e]
      simp only [List.mem_append]
      right; exact htok
  · intro hmem
    exact mem_split_first _ _ hmem
  · intro hno
    rw [hR]
    unfold parseRemarks
    simp only [indexOf_absent _ _ hno]
    simp

/-- Witness of C9: the sample report, whose remarks are `RMK AO2 SLP132`. -/
theorem remarks_from_rmk_witness :
    ∃ m, ParseMETAR ⟨2024, 5⟩ "KBFI 261853Z 18015G22KT A2992 RMK AO2 SLP132".toList
        = .ret m none ∧
      m.Remarks = Join ["RMK".toList, "AO2".toList, "SLP132".toList] [' '] ∧
      Fields m.Remarks = ["RMK".toList, "AO2".toList, "SLP132".toList] := by
  refine ⟨_, rfl, ?_⟩
  obtain ⟨hw, _, _⟩ :=
    remarks_from_rmk ⟨2024, 5⟩ "KBFI 261853Z 18015G22KT A2992 RMK AO2 SLP132".toList _ rfl
  have := hw ["KBFI".toList, "261853Z".toList, "18015G22KT".toList, "A2992".toList]
    ["AO2".toList, "SLP132".toList] (by decide) (by decide)
  exact ⟨this.1, this.2.2⟩

/-- C10: every CloudLayer of a record returned by `ParseMETAR`, with or without an error, has
a coverage among FEW, SCT, BKN, OVC and a height that is a multiple of 100 between 0 and
99900 inclusive. -/
theorem cloud_layer_invariant (now : Clock) (s : GoString) (m : METAR)
    (err : Option ParseError) (h : ParseMETAR now s = .ret m err) :
    ∀ l ∈ m.CloudLayers, l.Coverage ∈ coverageCodes ∧
      ∃ k : Nat, k ≤ 999 ∧ l.Height = (k : Int) * 100 ∧ 0 ≤ l.Height ∧ l.Height ≤ 99900 := by
  intro l hl
  cases err with
  | some e =>
    rcases parse_err h with ⟨_, _, rfl⟩ | ⟨p0, p1, more, _, _, _, rfl⟩
    · simp [METAR.zero] at hl
    · simp [METAR.zero] at hl
  | none =>
    obtain ⟨p0, p1, p2, rest, _, _, _, _, _, hC, _⟩ := parse_ok h
    rw [hC, parseClouds_filterMap, List.mem_filterMap] at hl
    obtain ⟨tok, _, htok⟩ := hl
    obtain ⟨_, hc, k, hk, hh⟩ := cloudLayerOf_some htok
    exact ⟨hc, k, hk, hh, by omega, by omega⟩

/-- Witness of C10: the layers of `KBFI 261853Z 18015KT OVC999 FEW000`. -/
theorem cloud_layer_invariant_witness :
    ∃ m, ParseMETAR ⟨2024, 5⟩ "KBFI 261853Z 18015KT OVC999 FEW000".toList = .ret m none ∧
      m.CloudLayers = [⟨"OVC".toList, 99900⟩, ⟨"FEW".toList, 0⟩] ∧
      ∀ l ∈ m.CloudLayers, l.Coverage ∈ coverageCodes ∧
        ∃ k : Nat, k ≤ 999 ∧ l.Height = (k : Int) * 100 ∧ 0 ≤ l.Height ∧ l.Height ≤ 99900 :=
  ⟨_, rfl, rfl,
    cloud_layer_invariant ⟨2024, 5⟩ "KBFI 261853Z 18015KT OVC999 FEW000".toList _ none rfl⟩

end Donkey
